import Mathlib

/-!
Verification development for the analytical core of a MIPS-assembly-to-C
decompiler (src/main.py).  The Python data classes and functions are embedded
shallowly: frozen attrs classes become inductives / structures, functions that
may raise become Option- or Except-valued, and the recursion of the flow
analyser is made explicit with a fuel parameter (the Python recursion depth).
-/

set_option maxRecDepth 4000
set_option linter.unnecessarySeqFocus false

/-! ## Data model: arguments (operand ASTs)

Python classes Register, GlobalSymbol, Macro, NumberLiteral, AddressMode,
BinOp, JumpTarget, and the union type Argument.  The Python class named
"Macro" is embedded as the constructor `macroArg`.
-/

structure Register where
  register_name : String
deriving DecidableEq

/-- Python `AddressMode(lhs, rhs)` has an `Optional` lhs.  The optional field
is encoded by two constructors (`addressMode` with a present lhs,
`addressModeNoLhs` for `lhs = None`) so that the type is not a nested
inductive; everything else follows the Python classes field by field. -/
inductive Argument where
  | register (r : Register)
  | globalSymbol (symbol_name : String)
  | macroArg (mname : String) (argument : Argument)
  | numberLiteral (value : Int)
  | addressMode (lhs : Argument) (rhs : Argument)
  | addressModeNoLhs (rhs : Argument)
  | binOp (op : String) (lhs : Argument) (rhs : Argument)
  | jumpTarget (target : String)
deriving DecidableEq

/-! ## Character classes

`valid_word = string.ascii_letters + string.digits + '_'` and
`valid_number = '-x' + string.hexdigits`.  `tok.isspace()` is modelled on the
ASCII whitespace characters (assembly input is ASCII).
-/

def isValidWordChar (c : Char) : Bool :=
  c.isAlpha || c.isDigit || c == '_'

def isValidNumberChar (c : Char) : Bool :=
  c == '-' || c == 'x' || c.isDigit ||
    ('a' ≤ c && c ≤ 'f') || ('A' ≤ c && c ≤ 'F')

def isPySpace (c : Char) : Bool :=
  c == ' ' || c == '\t' || c == '\n' || c == '\r' ||
    c == '\x0b' || c == '\x0c'

/-- `parse_word(elems, valid)`: pop leading characters of `elems` that lie in
`valid`, returning the word and the remaining characters. -/
def parseWord (valid : Char → Bool) : List Char → List Char × List Char
  | [] => ([], [])
  | c :: rest =>
    if valid c then
      let (w, r) := parseWord valid rest
      (c :: w, r)
    else ([], c :: rest)

/-! ## Python integer literals

`parse_number` calls `ast.literal_eval` on the consumed word.  We model the
integer literals that can be built from the `valid_number` character set:
an optional unary minus, followed by a hexadecimal (`0x`) or decimal literal.
Failures of `literal_eval` (ValueError / SyntaxError) are `none`.
-/

def hexCharVal (c : Char) : Nat :=
  if c.isDigit then c.toNat - 48
  else if 'a' ≤ c && c ≤ 'f' then c.toNat - 87
  else if 'A' ≤ c && c ≤ 'F' then c.toNat - 55
  else 0

def isHexDigitChar (c : Char) : Bool :=
  c.isDigit || ('a' ≤ c && c ≤ 'f') || ('A' ≤ c && c ≤ 'F')

def hexDigitsVal (ds : List Char) : Nat :=
  ds.foldl (fun a c => 16 * a + hexCharVal c) 0

def decDigitsVal (ds : List Char) : Nat :=
  ds.foldl (fun a c => 10 * a + (c.toNat - 48)) 0

def pyEvalNonneg (l : List Char) : Option Nat :=
  match l with
  | '0' :: 'x' :: ds =>
    if ds ≠ [] ∧ ds.all isHexDigitChar then some (hexDigitsVal ds) else none
  | _ =>
    -- Python 3 decimal literals: nonzero leading digit, or a run of zeros.
    if l ≠ [] ∧ l.all Char.isDigit ∧ (l.head? = some '0' → l.all (· == '0')) then
      some (decDigitsVal l)
    else none

def pyLiteralEvalInt (l : List Char) : Option Int :=
  match l with
  | '-' :: rest => (pyEvalNonneg rest).map (fun n => -(n : Int))
  | _ => (pyEvalNonneg l).map (fun n => (n : Int))

/-! ## The operand parser

`parse_arg_elems` is a while loop over a mutable character list with a
mutable `value`; each iteration of the loop and each nested recursive call is
one step of the fuel-indexed function below.  The outer `Option` is a crash
(a failed assert, `sys.exit`, or an IndexError); the inner `Option Argument`
is the Python return value, which may be None.  Every step consumes at least
one character before recursing, so fuel `length + 1` computes the exact
Python behaviour (`parseArgChars` below).
-/

/-- One iteration of the `parse_arg_elems` while loop, on a non-empty
character list `tok :: rest`; `recur` performs both the nested recursive
calls and the next loop iteration (in the fuel-indexed driver below it is
the parser at one fuel less). -/
def parseArgElemsStep
    (recur : List Char → Option Argument → Option (Option Argument × List Char))
    (tok : Char) (rest : List Char) (value : Option Argument) :
    Option (Option Argument × List Char) :=
  if isPySpace tok then
    -- Ignore whitespace.
    recur rest value
  else if tok == '$' then
    match value with
    | some _ => none
    | none =>
      let (w, r) := parseWord isValidWordChar rest
      recur r (some (.register ⟨String.mk w⟩))
  else if tok == '.' then
    match value with
    | some _ => none
    | none =>
      let (w, r) := parseWord isValidWordChar rest
      recur r (some (.jumpTarget (String.mk w)))
  else if tok == '%' then
    match value with
    | some _ => none
    | none =>
      let (w, r) := parseWord isValidWordChar rest
      if w = ['h', 'i'] ∨ w = ['l', 'o'] then
        match r with
        | '(' :: r2 =>
          match recur r2 none with
          | some (some m, ')' :: r3) =>
            recur r3 (some (.macroArg (String.mk w) m))
          | _ => none
        | _ => none
      else none
  else if tok == ')' then
    -- Break out to the parent of this call (')' is not consumed).
    some (value, tok :: rest)
  else if tok == '-' || tok.isDigit then
    match value with
    | some _ => none
    | none =>
      let (w, r) := parseWord isValidNumberChar (tok :: rest)
      match pyLiteralEvalInt w with
      | some n => recur r (some (.numberLiteral n))
      | none => none
  else if tok == '(' then
    -- Address mode; value (the optional offset) must be None, a
    -- NumberLiteral or a Macro.
    match value with
    | none =>
      match recur rest none with
      | some (some rhs, ')' :: r2) =>
        recur r2 (some (.addressModeNoLhs rhs))
      | _ => none
    | some (.numberLiteral n) =>
      match recur rest none with
      | some (some rhs, ')' :: r2) =>
        recur r2 (some (.addressMode (.numberLiteral n) rhs))
      | _ => none
    | some (.macroArg mn ma) =>
      match recur rest none with
      | some (some rhs, ')' :: r2) =>
        recur r2 (some (.addressMode (.macroArg mn ma) rhs))
      | _ => none
    | some _ => none
  else if isValidWordChar tok then
    match value with
    | some _ => none
    | none =>
      let (w, r) := parseWord isValidWordChar (tok :: rest)
      recur r (some (.globalSymbol (String.mk w)))
  else if tok == '>' || tok == '+' || tok == '&' then
    -- Binary operators; value must already be a NumberLiteral or
    -- GlobalSymbol.  For '>' a second '>' is expected; the right-hand
    -- side is parsed recursively, must be a NumberLiteral, and the
    -- BinOp is returned immediately.
    match value with
    | some v =>
      if (match v with
          | .numberLiteral _ => true
          | .globalSymbol _ => true
          | _ => false) then
        if tok == '>' then
          match rest with
          | '>' :: r =>
            match recur r none with
            | some (some (.numberLiteral n), r2) =>
              some (some (.binOp ">>" v (.numberLiteral n)), r2)
            | _ => none
          | _ => none
        else
          match recur rest none with
          | some (some (.numberLiteral n), r2) =>
            some (some (.binOp (String.mk [tok]) v (.numberLiteral n)), r2)
          | _ => none
      else none
    | none => none
  else none

def parseArgElems (fuel : Nat) (l : List Char) (value : Option Argument) :
    Option (Option Argument × List Char) :=
  match l with
  | [] => some (value, [])
  | tok :: rest =>
    match fuel with
    | 0 => none
    | f + 1 => parseArgElemsStep (parseArgElems f) tok rest value

theorem parseArgElems_nil (f : Nat) (v : Option Argument) :
    parseArgElems f [] v = some (v, []) := by
  cases f <;> rfl

theorem parseArgElems_cons (f : Nat) (tok : Char) (rest : List Char)
    (v : Option Argument) :
    parseArgElems (f + 1) (tok :: rest) v =
      parseArgElemsStep (parseArgElems f) tok rest v := rfl

/-- `parse_arg`: run the element parser on the characters of the operand,
with enough fuel that the fuel never runs out (each step consumes at least
one character).  The result is the final `value`; a crash is `none`. -/
def parseArgChars (l : List Char) : Option (Option Argument) :=
  (parseArgElems (l.length + 1) l none).map Prod.fst

def parseArg (s : String) : Option (Option Argument) :=
  parseArgChars s.data

/-! ## Instructions, labels, functions, blocks

`Function.body` is a list of `Union[Instruction, Label]` items.  The block
builder appends the element following a branch (the delay slot) to the
pending block without checking its type (`typing.cast` is a runtime no-op),
so `Block.instructions` is also a list of such items.
-/

structure Instruction where
  mnemonic : String
  args : List Argument
deriving DecidableEq

structure Label where
  name : String
deriving DecidableEq

inductive Item where
  | instr (i : Instruction)
  | label (l : Label)
deriving DecidableEq

/-- `Instruction.is_branch_instruction`. -/
def Instruction.is_branch_instruction (i : Instruction) : Bool :=
  ["b", "beq", "bne", "bgez", "bgtz", "blez", "bltz"].contains i.mnemonic

structure Block where
  index : Nat
  label : Option Label
  instructions : List Item
deriving DecidableEq

/-! ## Block building (first half of `do_flow_analysis`)

State: the pending block index, its remembered starting label, and its
pending instruction list.  `new_block()` emits the pending block only when it
is non-empty (and only then clears the label and bumps the index).  On a
branch instruction the next body element is pulled unconditionally; an
exhausted iterator (StopIteration) is a crash, hence `none`.
-/

def buildBlocksAux : List Item → Nat → Option Label → List Item → List Block →
    Option (List Block)
  | [], idx, lbl, cur, acc =>
    -- Trailing new_block().
    if cur.isEmpty then some acc
    else some (acc ++ [⟨idx, lbl, cur⟩])
  | .label l :: rest, idx, lbl, cur, acc =>
    -- Split blocks at labels; new_block() is a no-op on an empty pending
    -- block (and then the previous label is simply overwritten).
    if cur.isEmpty then buildBlocksAux rest idx (some l) [] acc
    else buildBlocksAux rest (idx + 1) (some l) [] (acc ++ [⟨idx, lbl, cur⟩])
  | .instr i :: rest, idx, lbl, cur, acc =>
    if i.is_branch_instruction then
      match rest with
      | [] => none
      | d :: rest2 =>
        -- Take the delay-slot element (whatever it is) and emit the block.
        buildBlocksAux rest2 (idx + 1) none [] (acc ++ [⟨idx, lbl, cur ++ [.instr i, d]⟩])
    else buildBlocksAux rest idx lbl (cur ++ [.instr i]) acc

def buildBlocks (body : List Item) : Option (List Block) :=
  buildBlocksAux body 0 none [] []

/-! ## Flow analysis (second half of `do_flow_analysis`) -/

inductive Node where
  | basic (block : Block) (exit_edge : Node)
  | exit (block : Block)
  | cond (block : Block) (conditional_edge : Node) (fallthrough_edge : Node)
deriving DecidableEq

def Node.block : Node → Block
  | .basic b _ => b
  | .exit b => b
  | .cond b _ _ => b

/-- `is_loop_edge`: loops are represented by backwards jumps. -/
def is_loop_edge (node edge : Node) : Bool :=
  decide (edge.block.index < node.block.index)

/-- `BasicNode.is_loop` / `ConditionalNode.is_loop`. -/
def Node.is_loop : Node → Bool
  | .basic b e => is_loop_edge (.basic b e) e
  | .exit _ => false
  | .cond b c ft => is_loop_edge (.cond b c ft) c

structure FlowAnalysis where
  nodes : List Node
deriving DecidableEq

/-- `find_block_by_label`: the first block whose label has the given name
(None if there is no such block). -/
def findBlockByLabel (blocks : List Block) (target : String) : Option Block :=
  blocks.find? (fun blk =>
    match blk.label with
    | some l => l.name == target
    | none => false)

/-- The items of a block, provided all of them are instructions; a `Label`
among them makes `inst.is_branch_instruction()` raise (AttributeError). -/
def blockInstructions (b : Block) : Option (List Instruction) :=
  b.instructions.mapM (fun it =>
    match it with
    | .instr i => some i
    | .label _ => none)

/-- `get_block_analysis` with `do_block_analysis` inlined.  The `nodes` list
is threaded explicitly (in Python it is a shared mutable list); a node is
appended only AFTER its analysis completes, exactly as in the source.  The
fuel bounds the recursion depth (Python's recursion limit); `none` at fuel 0
corresponds to a RecursionError.  The memo lookup compares blocks
structurally, as attrs-generated `==` does. -/
def getBlockAnalysis (fuel : Nat) (blocks : List Block) (nodes : List Node)
    (block : Block) : Option (Node × List Node) :=
  match nodes.find? (fun n => n.block == block) with
  | some n => some (n, nodes)
  | none =>
    match fuel with
    | 0 => none
    | f + 1 =>
      -- do_block_analysis(block)
      match blockInstructions block with
      | none => none
      | some instrs =>
        match instrs.filter Instruction.is_branch_instruction with
        | [] =>
          -- No branches: the next block is this node's exit block.
          match blocks.get? (block.index + 1) with
          | none => none
          | some exitBlock =>
            match getBlockAnalysis f blocks nodes exitBlock with
            | none => none
            | some (en, nodes2) =>
              let node := Node.basic block en
              some (node, nodes2 ++ [node])
        | [branch] =>
          match branch.args.getLast? with
          | some (.jumpTarget t) =>
            match findBlockByLabel blocks t with
            | none => none
            | some branchBlock =>
              match getBlockAnalysis f blocks nodes branchBlock with
              | none => none
              | some (bn, nodes2) =>
                if branch.mnemonic == "b" then
                  -- A constant branch becomes a basic edge to the target.
                  let node := Node.basic block bn
                  some (node, nodes2 ++ [node])
                else
                  -- Conditional: the fallthrough block is the next block.
                  match blocks.get? (block.index + 1) with
                  | none => none
                  | some ftBlock =>
                    match getBlockAnalysis f blocks nodes2 ftBlock with
                    | none => none
                    | some (fn, nodes3) =>
                      let node := Node.cond block bn fn
                      some (node, nodes3 ++ [node])
          | _ => none
        | _ => none

/-- Stable insertion used to model Python's stable `list.sort` by block
index: each node is inserted after all previously placed nodes of smaller or
equal index. -/
def insertByIndex (n : Node) : List Node → List Node
  | [] => [n]
  | m :: rest =>
    if m.block.index ≤ n.block.index then m :: insertByIndex n rest
    else n :: m :: rest

def sortNodesByIndex (nodes : List Node) : List Node :=
  nodes.foldl (fun acc n => insertByIndex n acc) []

/-- `do_flow_analysis(function)`: build blocks, pre-build the ExitNode from
the last block, analyse from the entrance block, sort. -/
def doFlowAnalysis (fuel : Nat) (body : List Item) : Option FlowAnalysis :=
  match buildBlocks body with
  | none => none
  | some blocks =>
    match blocks.getLast? with
    | none => none  -- blocks[-1] on an empty list: IndexError
    | some exitBlock =>
      let exitNode := Node.exit exitBlock
      match blocks.get? 0 with
      | none => none
      | some entranceBlock =>
        match getBlockAnalysis fuel blocks [exitNode] entranceBlock with
        | none => none
        | some (_, nodes) => some ⟨sortNodesByIndex nodes⟩

/-! ## IR expressions and the register map

The lifter's values: parser Arguments reused as leaves, `BinaryOp`,
`UnaryOp`, `Cast`, `Store`, `TypeHint`, `Return`, the 2-tuple produced by the
`div` handler, the Python `None` stored by `handle_ori`, and the AddressMode
objects that `deref` rebuilds with an IR expression on the right-hand side
(`addrModeDeref` / `addrModeDerefNoLhs`, mirroring the optional lhs).
The register map is a Python dict keyed by Register (attrs value equality),
modelled as an association list with in-place update.
-/

inductive Expr where
  | arg (a : Argument)
  | binaryOp (left : Expr) (op : String) (right : Expr)
  | unaryOp (op : String) (expr : Expr)
  | cast (to_type : String) (expr : Expr)
  | store (size : Int) (source : Expr) (dest : Expr) (float : Bool)
  | typeHint (type : String) (value : Expr)
  | ret
  | addrModeDeref (lhs : Argument) (rhs : Expr)
  | addrModeDerefNoLhs (rhs : Expr)
  | tuple2 (fst : Expr) (snd : Expr)
  | pyNone
deriving DecidableEq

abbrev RegMap := List (Register × Expr)

/-- Dict lookup `reg[r]`; a missing key is a KeyError, hence `none`. -/
def regGet (reg : RegMap) (r : Register) : Option Expr :=
  (reg.find? (fun p => p.1 == r)).map Prod.snd

/-- Dict update `reg[r] = e`: replace the value of an existing key in place,
otherwise append. -/
def regSet (reg : RegMap) (r : Register) (e : Expr) : RegMap :=
  match reg with
  | [] => [(r, e)]
  | (k, v) :: rest =>
    if k == r then (k, e) :: rest else (k, v) :: regSet rest r e

/-- `reg[a]` where the key is an Argument from the instruction: only a
Register key can be present in the dict, so any other Argument is a
KeyError. -/
def regGetArg (reg : RegMap) (a : Argument) : Option Expr :=
  match a with
  | .register r => regGet reg r
  | _ => none

/-! ## Stack-frame analysis (`find_stack_info`) -/

structure StackState where
  allocated_stack_size : Int
  is_leaf : Bool
  return_addr_location : Int
  callee_save_reg_locations : List (Register × Int)
deriving DecidableEq

/-- Dict update for `callee_save_reg_locations`. -/
def csaveSet (m : List (Register × Int)) (r : Register) (v : Int) :
    List (Register × Int) :=
  match m with
  | [] => [(r, v)]
  | (k, w) :: rest =>
    if k == r then (k, v) :: rest else (k, w) :: csaveSet rest r v

/-- `Register.is_callee_save`: `re.match('s[0-7]', name)` matches a prefix
`s` followed by a digit 0..7. -/
def Register.is_callee_save (r : Register) : Bool :=
  match r.register_name.data with
  | 's' :: c :: _ => '0' ≤ c && c ≤ '7'
  | _ => false

/-- One instruction of the prologue scan.  A `Label` among the items, or a
non-Register first argument of an `addiu`/`sw`, raises AttributeError; a
missing argument raises IndexError; failed asserts likewise crash: all are
`none`. -/
def stackStep (st : StackState) (item : Item) : Option StackState :=
  match item with
  | .label _ => none
  | .instr i =>
    match i.args with
    | [] => some st
    | a0 :: _ =>
      if i.mnemonic == "addiu" then
        match a0 with
        | .register r =>
          if r.register_name == "sp" then
            -- Moving the stack pointer.
            match i.args.get? 2 with
            | some (.numberLiteral n) =>
              some { st with allocated_stack_size := -n }
            | _ => none
          else some st
        | _ => none
      else if i.mnemonic == "sw" then
        match a0 with
        | .register r =>
          if r.register_name == "ra" then
            -- Saving the return address on the stack.
            match i.args.get? 1 with
            | some (.addressMode (.numberLiteral n) (.register rr)) =>
              if rr.register_name == "sp" then
                some { st with is_leaf := false, return_addr_location := n }
              else none
            | some (.addressModeNoLhs (.register rr)) =>
              if rr.register_name == "sp" then
                some { st with is_leaf := false, return_addr_location := 0 }
              else none
            | some (.addressMode _ (.register rr)) =>
              -- lhs present but not a NumberLiteral: the assert fails.
              if rr.register_name == "sp" then none else none
            | _ => none
          else if r.is_callee_save then
            -- The remaining tests are part of the elif condition; if any
            -- fails the instruction simply does not match.
            match i.args.get? 1 with
            | none => none  -- IndexError inside the condition
            | some (.addressMode (.numberLiteral n) (.register rr)) =>
              if rr.register_name == "sp" then
                some { st with callee_save_reg_locations :=
                  (csaveSet st.callee_save_reg_locations r n) }
              else some st
            | some (.addressModeNoLhs (.register rr)) =>
              if rr.register_name == "sp" then
                some { st with callee_save_reg_locations :=
                  (csaveSet st.callee_save_reg_locations r 0) }
              else some st
            | some (.addressMode _ (.register rr)) =>
              if rr.register_name == "sp" then none else some st
            | some _ => some st
          else some st
        | _ => none
      else some st

structure StackInfo extends StackState where
  local_vars_region_bottom : Int
deriving DecidableEq

/-- Python `max` over the dict values (the dict is known non-empty). -/
def listMaxInt : List Int → Int
  | [] => 0
  | x :: xs => xs.foldl max x

/-- `find_stack_info`, run over the instruction items of the entry block. -/
def findStackInfo (items : List Item) : Option StackInfo :=
  match items.foldlM stackStep ⟨0, true, 0, []⟩ with
  | none => none
  | some st =>
    let bottom :=
      if st.is_leaf ∧ st.callee_save_reg_locations ≠ [] then
        listMaxInt (st.callee_save_reg_locations.map Prod.snd) + 4
      else if st.is_leaf then 0
      else st.return_addr_location + 4
    some { st with local_vars_region_bottom := bottom }

/-- `in_local_var_region(location)`. -/
def inLocalVarRegion (info : StackInfo) (location : Int) : Prop :=
  info.local_vars_region_bottom ≤ location ∧
    location < info.allocated_stack_size

instance (info : StackInfo) (location : Int) :
    Decidable (inLocalVarRegion info location) := by
  unfold inLocalVarRegion; infer_instance

/-! ## Instruction lifting (`translate_block_body`)

Handler groups become key lists plus handler functions; dispatch tests the
key lists in the order of the Python if/elif chain.  `Option` is a per-
instruction crash (failed assert, KeyError, IndexError, AttributeError); the
fatal fall-through branch is distinguished as a separate error so that
"unknown mnemonic" is observable.
-/

/-- `deref(arg, reg)`. -/
def deref (a : Argument) (reg : RegMap) : Option Expr :=
  match a with
  | .addressMode lhs (.register r) =>
    if r.register_name == "sp" then some (.arg (.addressMode lhs (.register r)))
    else (regGet reg r).map (fun e => .addrModeDeref lhs e)
  | .addressModeNoLhs (.register r) =>
    if r.register_name == "sp" then some (.arg (.addressModeNoLhs (.register r)))
    else (regGet reg r).map (fun e => .addrModeDerefNoLhs e)
  | .addressMode _ _ => none
  | .addressModeNoLhs _ => none
  | .register r => regGet reg r
  | _ => none

/-- `load_upper(args, reg)` (the `lui` handler; `reg` is unused in the
source as well). -/
def loadUpper (args : List Argument) (_reg : RegMap) : Option Expr :=
  match args.get? 1 with
  | none => none
  | some a1 =>
    match a1 with
    | .binOp op lhs rhs =>
      if op == ">>" ∧ rhs = .numberLiteral 16 then some (.arg lhs) else none
    | .numberLiteral n =>
      some (.binaryOp (.arg (.numberLiteral n)) "<<" (.arg (.numberLiteral 16)))
    | _ => some (.arg a1)

/-- `handle_ori(args, reg)`.  For the `lui`-partner form the Python handler
returns None, which is then stored into the register map: `Expr.pyNone`. -/
def handleOri (args : List Argument) (reg : RegMap) : Option Expr :=
  match args.get? 1 with
  | none => none
  | some a1 =>
    match a1 with
    | .binOp op _ rhs =>
      if op == "&" ∧ rhs = .numberLiteral 0xFFFF then some .pyNone else none
    | _ =>
      match args.get? 0 with
      | none => none
      | some a0 =>
        match regGetArg reg a0 with
        | none => none
        | some v => some (.binaryOp v "<" (.arg a1))

/-- `handle_addi(args, reg)`. -/
def handleAddi (args : List Argument) (reg : RegMap) : Option Expr :=
  if args.length == 2 then
    (args.get? 1).map (fun a1 => .arg a1)
  else
    match args.get? 1 with
    | none => none
    | some (.register r) =>
      if r.register_name == "sp" then
        match args.get? 2 with
        | some (.numberLiteral n) =>
          some (.unaryOp "&" (.arg (.addressMode (.numberLiteral n) (.register ⟨"sp"⟩))))
        | _ => none
      else
        match regGet reg r with
        | none => none
        | some v =>
          match args.get? 2 with
          | none => none
          | some a2 => some (.binaryOp v "+" (.arg a2))
    | some _ => none

def casesSourceFirstExpressionKeys : List String := ["sb", "sh", "sw", "swc1", "sdc1"]

/-- Handlers of `cases_source_first_expression` (emit a Store). -/
def sfeHandler (m : String) (args : List Argument) (reg : RegMap) : Option Expr :=
  match args.get? 0, args.get? 1 with
  | some a0, some a1 =>
    match regGetArg reg a0 with
    | none => none
    | some src =>
      match deref a1 reg with
      | none => none
      | some d =>
        if m == "sb" then some (.store 8 src d false)
        else if m == "sh" then some (.store 16 src d false)
        else if m == "sw" then some (.store 32 src d false)
        else if m == "swc1" then some (.store 32 src d true)
        else if m == "sdc1" then some (.store 64 src d true)
        else none
  | _, _ => none

def casesSourceFirstRegisterKeys : List String := ["mtc1"]

def casesBranchesKeys : List String :=
  ["b", "beq", "bne", "beqz", "bnez", "blez", "bgtz", "bltz", "bgez"]

def casesFloatBranchesKeys : List String := ["bc1t", "bc1f"]

def casesJumpsKeys : List String := ["jal", "jr"]

def casesFloatCompKeys : List String := ["c.eq.s", "c.le.s", "c.lt.s"]

def casesSpecialKeys : List String := ["lui", "ori", "addi"]

/-- Handlers of `cases_special`. -/
def specialHandler (m : String) (args : List Argument) (reg : RegMap) : Option Expr :=
  if m == "lui" then loadUpper args reg
  else if m == "ori" then handleOri args reg
  else if m == "addi" then handleAddi args reg
  else none

def casesDestinationFirstKeys : List String :=
  ["slt", "slti", "addu", "multu", "subu", "div", "negu", "mfhi", "mflo",
   "div.s", "cvt.d.s", "cvt.s.d", "cvt.w.d", "trunc.w.s", "trunc.w.d",
   "and", "or", "xor", "andi", "xori", "sll", "srl", "move", "mfc1",
   "li", "lb", "lh", "lw", "lbu", "lhu", "lwu", "lwc1", "ldc1"]

/-- `reg[a[i]]` for a handler. -/
def regAt (reg : RegMap) (args : List Argument) (i : Nat) : Option Expr :=
  match args.get? i with
  | none => none
  | some a => regGetArg reg a

/-- A `BinaryOp(reg[a[1]], op, reg[a[2]])` handler body. -/
def binRR (reg : RegMap) (args : List Argument) (op : String) : Option Expr :=
  match regAt reg args 1, regAt reg args 2 with
  | some l, some r => some (.binaryOp l op r)
  | _, _ => none

/-- A `BinaryOp(reg[a[1]], op, a[2])` handler body. -/
def binRI (reg : RegMap) (args : List Argument) (op : String) : Option Expr :=
  match regAt reg args 1, args.get? 2 with
  | some l, some a2 => some (.binaryOp l op (.arg a2))
  | _, _ => none

/-- A `TypeHint(type, deref(a[1], reg))` handler body. -/
def loadHint (reg : RegMap) (args : List Argument) (ty : String) : Option Expr :=
  match args.get? 1 with
  | none => none
  | some a1 => (deref a1 reg).map (fun d => .typeHint ty d)

/-- A `Cast(to_type, reg[a[1]])` handler body. -/
def castR (reg : RegMap) (args : List Argument) (ty : String) : Option Expr :=
  (regAt reg args 1).map (fun e => .cast ty e)

/-- Handlers of `cases_destination_first`. -/
def destFirstHandler (m : String) (args : List Argument) (reg : RegMap) :
    Option Expr :=
  if m == "slt" then binRR reg args "<"
  else if m == "slti" then binRI reg args "<"
  else if m == "addu" then binRR reg args "+"
  else if m == "multu" then binRR reg args "*"
  else if m == "subu" then binRR reg args "-"
  else if m == "div" then
    match binRR reg args "/", binRR reg args "%" with
    | some hi, some lo => some (.tuple2 hi lo)
    | _, _ => none
  else if m == "negu" then (regAt reg args 1).map (fun e => .unaryOp "-" e)
  else if m == "mfhi" then regGet reg ⟨"hi"⟩
  else if m == "mflo" then regGet reg ⟨"lo"⟩
  else if m == "div.s" then binRR reg args "/"
  else if m == "cvt.d.s" then castR reg args "(f64)"
  else if m == "cvt.s.d" then castR reg args "(f32)"
  else if m == "cvt.w.d" then castR reg args "(s32)"
  else if m == "trunc.w.s" then castR reg args "(s32)"
  else if m == "trunc.w.d" then castR reg args "(s32)"
  else if m == "and" then binRR reg args "&"
  else if m == "or" then binRR reg args "^"  -- as authored in the source
  else if m == "xor" then binRR reg args "^"
  else if m == "andi" then binRI reg args "&"
  else if m == "xori" then binRI reg args "^"
  else if m == "sll" then binRI reg args "<<"
  else if m == "srl" then binRI reg args ">>"
  else if m == "move" then regAt reg args 1
  else if m == "mfc1" then regAt reg args 1
  else if m == "li" then (args.get? 1).map (fun a1 => .arg a1)
  else if m == "lb" then loadHint reg args "s8"
  else if m == "lh" then loadHint reg args "s16"
  else if m == "lw" then loadHint reg args "s32"
  else if m == "lbu" then loadHint reg args "u8"
  else if m == "lhu" then loadHint reg args "u16"
  else if m == "lwu" then loadHint reg args "u32"
  else if m == "lwc1" then loadHint reg args "f32"
  else if m == "ldc1" then loadHint reg args "f64"
  else none

/-- `cases_repeats`: alias table from synonym to canonical mnemonic. -/
def casesRepeats : List (String × String) :=
  [("addiu", "addi"), ("divu", "div"),
   ("add.s", "addu"), ("mul.s", "multu"), ("sub.s", "subu"),
   ("add.d", "addu"), ("div.d", "div.s"), ("mul.d", "mulu"), ("sub.d", "subu"),
   ("cvt.d.w", "cvt.d.s"), ("cvt.s.w", "cvt.s.d"), ("cvt.w.s", "cvt.w.d"),
   ("c.lt.d", "c.lt.s"), ("c.eq.d", "c.eq.s"), ("c.le.d", "c.le.s"),
   ("sra", "srl"), ("sltiu", "slti"), ("sltu", "slt")]

/-- `if mnemonic in cases_repeats: mnemonic = cases_repeats[mnemonic]`. -/
def canonicalMnemonic (m : String) : String :=
  match casesRepeats.find? (fun p => p.1 == m) with
  | some p => p.2
  | none => m

/-- The macro-unwrapping preprocessing step. -/
def unwrapMacro (a : Argument) : Argument :=
  match a with
  | .macroArg _ inner => inner
  | _ => a

inductive LiftErr where
  | crash
  | unknownMnemonic (m : String)
deriving DecidableEq

def liftCrash {α : Type} (o : Option α) : Except LiftErr α :=
  match o with
  | some x => .ok x
  | none => .error .crash

/-- One instruction of `translate_block_body`: alias normalisation, `nop`
dropping, macro unwrapping, then dispatch through the seven groups in the
order of the Python if/elif chain.  The state is the register map and the
`to_store` list. -/
def translateInstr (instr : Instruction) (reg : RegMap) (toStore : List Expr) :
    Except LiftErr (RegMap × List Expr) :=
  let m := canonicalMnemonic instr.mnemonic
  if m == "nop" then .ok (reg, toStore)
  else
    let args := instr.args.map unwrapMacro
    if casesSourceFirstExpressionKeys.contains m then
      -- Store a value in a permanent place.
      liftCrash ((sfeHandler m args reg).map (fun e => (reg, toStore ++ [e])))
    else if casesSourceFirstRegisterKeys.contains m then
      -- mtc1: reversed, the destination is args[1].
      liftCrash (match args.get? 1 with
        | some (.register r) =>
          (regAt reg args 0).map (fun e => (regSet reg r (.cast "f32" e), toStore))
        | _ => none)
    else if casesBranchesKeys.contains m then .ok (reg, toStore)
    else if casesFloatBranchesKeys.contains m then .ok (reg, toStore)
    else if casesJumpsKeys.contains m then
      -- jal evaluates a[0] (IndexError when absent); jr builds Return().
      liftCrash (if m == "jal" then
          (args.get? 0).map (fun _ => (reg, toStore))
        else some (reg, toStore))
    else if casesFloatCompKeys.contains m then .ok (reg, toStore)
    else if casesSpecialKeys.contains m then
      liftCrash (match args.get? 0 with
        | some (.register r) =>
          (specialHandler m args reg).map (fun e => (regSet reg r e, toStore))
        | _ => none)
    else if casesDestinationFirstKeys.contains m then
      liftCrash (match args.get? 0 with
        | some (.register r) =>
          (destFirstHandler m args reg).map (fun e => (regSet reg r e, toStore))
        | _ => none)
    else .error (.unknownMnemonic m)

/-- `translate_block_body(block, reg)`: fold the per-instruction step over
the block items.  A `Label` among the items raises AttributeError on
`instr.mnemonic`. -/
def translateItems (items : List Item) (reg : RegMap) (toStore : List Expr) :
    Except LiftErr (RegMap × List Expr) :=
  match items with
  | [] => .ok (reg, toStore)
  | .label _ :: _ => .error .crash
  | .instr i :: rest =>
    match translateInstr i reg toStore with
    | .error e => .error e
    | .ok (reg2, ts2) => translateItems rest reg2 ts2

def translateBlockBody (b : Block) (reg : RegMap) :
    Except LiftErr (RegMap × List Expr) :=
  translateItems b.instructions reg []

/-- The fresh register map built at each call site in `translate_to_ast`:
`{Register('zero'): NumberLiteral(0)}`. -/
def initialRegMap : RegMap := [(⟨"zero"⟩, .arg (.numberLiteral 0))]

/-- `translate_to_ast(function)`: flow analysis, stack info from the node at
index 0, then lifting of every node except the one at index 0, each with a
fresh register map; per-block lift failures are caught (the Except value is
recorded). -/
def translateToAst (fuel : Nat) (body : List Item) :
    Option (StackInfo × List (Block × Except LiftErr (RegMap × List Expr))) :=
  match doFlowAnalysis fuel body with
  | none => none
  | some fa =>
    match fa.nodes.get? 0 with
    | none => none
    | some startNode =>
      match findStackInfo startNode.block.instructions with
      | none => none
      | some info =>
        some (info,
          (fa.nodes.enum.filter (fun p => p.1 != 0)).map
            (fun p => (p.2.block, translateBlockBody p.2.block initialRegMap)))

/-! ## C1, C5: the flow analyser does not terminate on loops

`get_block_analysis` appends a node to the memo list only after
`do_block_analysis` for that block has completed, so a block that is (even
indirectly) its own successor is looked up while still being analysed, is
never found, and is re-analysed forever.  The fixtures below are minimal
loop functions; the analysis returns `none` (fuel exhausted) for EVERY fuel
bound, which is the fuel-model statement of non-termination.
-/

def c1body : List Item :=
  [.label ⟨"L0"⟩,
   .instr ⟨"b", [.jumpTarget "L0"]⟩,
   .instr ⟨"nop", []⟩,
   .instr ⟨"jr", [.register ⟨"ra"⟩]⟩,
   .instr ⟨"nop", []⟩]

def c1blk0 : Block :=
  ⟨0, some ⟨"L0"⟩,
   [.instr ⟨"b", [.jumpTarget "L0"]⟩, .instr ⟨"nop", []⟩]⟩

def c1blk1 : Block :=
  ⟨1, none, [.instr ⟨"jr", [.register ⟨"ra"⟩]⟩, .instr ⟨"nop", []⟩]⟩

theorem c1_buildBlocks : buildBlocks c1body = some [c1blk0, c1blk1] := rfl

theorem c1_aux :
    ∀ f, getBlockAnalysis f [c1blk0, c1blk1] [Node.exit c1blk1] c1blk0 = none := by
  intro f
  induction f with
  | zero => rfl
  | succ f ih =>
    have step : getBlockAnalysis (f + 1) [c1blk0, c1blk1] [Node.exit c1blk1] c1blk0 =
        (match getBlockAnalysis f [c1blk0, c1blk1] [Node.exit c1blk1] c1blk0 with
         | none => none
         | some (bn, nodes2) =>
           some (Node.basic c1blk0 bn, nodes2 ++ [Node.basic c1blk0 bn])) := rfl
    rw [step, ih]

/-- C1: refuted as stated.  `do_flow_analysis` does NOT terminate on a
function whose control-flow graph contains a cycle: on the fixture (a block
that branches back to its own label) the analysis exhausts every fuel bound,
i.e. the Python recursion `get_block_analysis -> do_block_analysis ->
get_block_analysis` never returns, because a node is memoised only after its
analysis completes and so an in-progress block is re-analysed. -/
theorem c1_flow_analysis_diverges : ∀ fuel, doFlowAnalysis fuel c1body = none := by
  intro f
  have step : doFlowAnalysis f c1body =
      (match getBlockAnalysis f [c1blk0, c1blk1] [Node.exit c1blk1] c1blk0 with
       | none => none
       | some (_, nodes) => some ⟨sortNodesByIndex nodes⟩) := rfl
  rw [step, c1_aux f]

def c5body : List Item :=
  [.label ⟨"L1"⟩,
   .instr ⟨"nop", []⟩,
   .instr ⟨"b", [.jumpTarget "L1"]⟩,
   .instr ⟨"nop", []⟩,
   .instr ⟨"jr", [.register ⟨"ra"⟩]⟩,
   .instr ⟨"nop", []⟩]

def c5blk0 : Block :=
  ⟨0, some ⟨"L1"⟩,
   [.instr ⟨"nop", []⟩, .instr ⟨"b", [.jumpTarget "L1"]⟩, .instr ⟨"nop", []⟩]⟩

def c5blk1 : Block :=
  ⟨1, none, [.instr ⟨"jr", [.register ⟨"ra"⟩]⟩, .instr ⟨"nop", []⟩]⟩

theorem c5_aux :
    ∀ f, getBlockAnalysis f [c5blk0, c5blk1] [Node.exit c5blk1] c5blk0 = none := by
  intro f
  induction f with
  | zero => rfl
  | succ f ih =>
    have step : getBlockAnalysis (f + 1) [c5blk0, c5blk1] [Node.exit c5blk1] c5blk0 =
        (match getBlockAnalysis f [c5blk0, c5blk1] [Node.exit c5blk1] c5blk0 with
         | none => none
         | some (bn, nodes2) =>
           some (Node.basic c5blk0 bn, nodes2 ++ [Node.basic c5blk0 bn])) := rfl
    rw [step, ih]

/-- C5: refuted as stated.  The fixture is precisely the spec scenario
".L1: ... b .L1": a function with a local label `.L1` and an unconditional
backwards branch `b .L1`.  Flow analysis produces no BasicNode at all (and
in particular none with a backward `exit_edge`): it runs out of every fuel
bound, i.e. the Python implementation recurses without bound
(RecursionError), for the reason recorded at C1. -/
theorem c5_loop_function_diverges : ∀ fuel, doFlowAnalysis fuel c5body = none := by
  intro f
  have step : doFlowAnalysis f c5body =
      (match getBlockAnalysis f [c5blk0, c5blk1] [Node.exit c5blk1] c5blk0 with
       | none => none
       | some (_, nodes) => some ⟨sortNodesByIndex nodes⟩) := rfl
  rw [step, c5_aux f]

/-! ## C2: `$zero` is not protected by the lifter

Every destination-first handler writes `reg[args[0]]` unconditionally, so an
instruction with `$zero` as destination overwrites the `NumberLiteral(0)`
entry (the source itself carries a TODO admitting that `$zero` should not be
overwritten "by div or anything like that").
-/

def c2block : Block :=
  ⟨1, none, [.instr ⟨"li", [.register ⟨"zero"⟩, .numberLiteral 1]⟩]⟩

/-- C2: refuted on the code.  Lifting the block `li $zero, 0x1` from the
initial register map `{Register("zero"): NumberLiteral(0)}` completes
without error and leaves `reg[Register("zero")] = NumberLiteral(1)`, not
`NumberLiteral(0)`. -/
theorem c2_zero_overwritten :
    translateBlockBody c2block initialRegMap =
      .ok ([(⟨"zero"⟩, .arg (.numberLiteral 1))], []) ∧
    regGet [(⟨"zero"⟩, .arg (.numberLiteral 1))] ⟨"zero"⟩ ≠
      some (.arg (.numberLiteral 0)) := by
  exact ⟨rfl, by decide⟩

/-! ## C3: branches and delay slots inside blocks

As stated the claim fails: the delay-slot element is pulled unconditionally,
so a branch sitting in the delay slot of another branch ends its block as the
LAST instruction, with nothing after it.  Under the well-formedness condition
that every branch is immediately followed in the body by a non-branch
Instruction (the MIPS delay-slot discipline the source assumes), the claim
holds and is proved below.
-/

/-- Every branch instruction in the body is immediately followed by a
non-branch Instruction (its delay slot); the recursion skips the delay slot,
mirroring the builder's own traversal. -/
def wellDelayed : List Item → Bool
  | [] => true
  | .label _ :: rest => wellDelayed rest
  | .instr i :: rest =>
    if i.is_branch_instruction then
      match rest with
      | .instr d :: rest2 => !d.is_branch_instruction && wellDelayed rest2
      | _ => false
    else wellDelayed rest

/-- The claimed per-block shape: a branch instruction at position `j` is
followed by exactly one more element, an Instruction, which closes the
block. -/
def branchDelayOk (blk : Block) : Prop :=
  ∀ j i, blk.instructions.get? j = some (.instr i) →
    i.is_branch_instruction = true →
    (∃ d, blk.instructions.get? (j + 1) = some (.instr d)) ∧
      blk.instructions.length = j + 2

def goodBlock (blk : Block) : Prop :=
  (∀ it ∈ blk.instructions, ∃ k, it = .instr k) ∧ branchDelayOk blk

def nonBranchItems (items : List Item) : Prop :=
  ∀ it ∈ items, ∃ k, it = .instr k ∧ k.is_branch_instruction = false

theorem goodBlock_of_nonBranch (idx : Nat) (lbl : Option Label)
    (items : List Item) (h : nonBranchItems items) :
    goodBlock ⟨idx, lbl, items⟩ := by
  constructor
  · intro it hit
    obtain ⟨k, hk, -⟩ := h it hit
    exact ⟨k, hk⟩
  · intro j i hread hbr
    have hit : Item.instr i ∈ items := List.get?_mem hread
    obtain ⟨k, hk, hnb⟩ := h _ hit
    have hik : i = k := by injection hk
    rw [hik, hnb] at hbr
    cases hbr

theorem goodBlock_append_pair (idx : Nat) (lbl : Option Label)
    (cur : List Item) (i d : Instruction)
    (hcur : nonBranchItems cur) (hd : d.is_branch_instruction = false) :
    goodBlock ⟨idx, lbl, cur ++ [.instr i, .instr d]⟩ := by
  constructor
  · intro it hit
    rcases List.mem_append.mp hit with h | h
    · obtain ⟨k, hk, -⟩ := hcur it h
      exact ⟨k, hk⟩
    · simp only [List.mem_cons, List.not_mem_nil, or_false] at h
      rcases h with h | h
      · exact ⟨i, h⟩
      · exact ⟨d, h⟩
  · intro j k hread hbr
    rcases Nat.lt_trichotomy j cur.length with hj | hj | hj
    · rw [List.get?_append hj] at hread
      have hit : Item.instr k ∈ cur := List.get?_mem hread
      obtain ⟨k2, hk2, hnb⟩ := hcur _ hit
      have hkk : k = k2 := by injection hk2
      rw [hkk, hnb] at hbr
      cases hbr
    · subst hj
      rw [List.get?_append_right (Nat.le_refl _)] at hread
      simp only [Nat.sub_self] at hread
      refine ⟨⟨d, ?_⟩, ?_⟩
      · rw [List.get?_append_right (Nat.le_succ_of_le (Nat.le_refl _))]
        simp
      · simp
    · rcases Nat.exists_eq_add_of_lt hj with ⟨m, hm⟩
      subst hm
      rw [List.get?_append_right (by omega)] at hread
      rcases m with _ | m
      · have h0 : cur.length + 0 + 1 - cur.length = 1 := by omega
        rw [h0] at hread
        simp only [List.get?] at hread
        have hdk : d = k := by
          have h2 := Option.some.inj hread
          injection h2
        rw [← hdk, hd] at hbr
        cases hbr
      · have h2 : cur.length + (m + 1) + 1 - cur.length = m + 2 := by omega
        rw [h2] at hread
        simp at hread

theorem buildBlocksAux_good :
    ∀ (n : Nat) (body : List Item), body.length ≤ n →
    ∀ (idx : Nat) (lbl : Option Label) (cur : List Item) (acc blocks : List Block),
    wellDelayed body = true →
    nonBranchItems cur →
    (∀ blk ∈ acc, goodBlock blk) →
    buildBlocksAux body idx lbl cur acc = some blocks →
    ∀ blk ∈ blocks, goodBlock blk := by
  intro n
  induction n with
  | zero =>
    intro body hlen idx lbl cur acc blocks _ hcur hacc heq blk hblk
    have hbody : body = [] := List.eq_nil_of_length_eq_zero (Nat.le_zero.mp hlen)
    subst hbody
    simp only [buildBlocksAux] at heq
    by_cases hc : cur.isEmpty
    · rw [if_pos hc] at heq
      cases heq
      exact hacc blk hblk
    · rw [if_neg hc] at heq
      cases heq
      rcases List.mem_append.mp hblk with h | h
      · exact hacc blk h
      · have hb := List.mem_singleton.mp h
        subst hb
        exact goodBlock_of_nonBranch _ _ _ hcur
  | succ n ih =>
    intro body hlen idx lbl cur acc blocks hwd hcur hacc heq blk hblk
    rcases body with _ | ⟨item, rest⟩
    · simp only [buildBlocksAux] at heq
      by_cases hc : cur.isEmpty
      · rw [if_pos hc] at heq
        cases heq
        exact hacc blk hblk
      · rw [if_neg hc] at heq
        cases heq
        rcases List.mem_append.mp hblk with h | h
        · exact hacc blk h
        · have hb := List.mem_singleton.mp h
          subst hb
          exact goodBlock_of_nonBranch _ _ _ hcur
    · rcases item with i | l
      · -- an Instruction
        by_cases hbr : i.is_branch_instruction
        · rcases rest with _ | ⟨d0, rest2⟩
          · -- exhausted iterator after a branch: the builder crashes
            have hnone : buildBlocksAux (Item.instr i :: []) idx lbl cur acc = none := by
              simp [buildBlocksAux, hbr]
            rw [hnone] at heq
            cases heq
          · rcases d0 with d | dl
            · -- the delay slot is an instruction
              have hwd2 := hwd
              simp [wellDelayed, hbr] at hwd2
              have hnd : d.is_branch_instruction = false := by
                rcases hwd2 with ⟨h1, -⟩
                simpa using h1
              have hwd3 : wellDelayed rest2 = true := hwd2.2
              have hlen2 : rest2.length ≤ n := by
                simp only [List.length_cons] at hlen
                omega
              have hstep : buildBlocksAux (Item.instr i :: Item.instr d :: rest2) idx lbl cur acc =
                  buildBlocksAux rest2 (idx + 1) none []
                    (acc ++ [⟨idx, lbl, cur ++ [Item.instr i, Item.instr d]⟩]) := by
                simp [buildBlocksAux, hbr]
              rw [hstep] at heq
              refine ih rest2 hlen2 _ _ _ _ _ hwd3 (by intro it h; cases h) ?_ heq blk hblk
              intro b hb
              rcases List.mem_append.mp hb with h | h
              · exact hacc b h
              · have hb2 := List.mem_singleton.mp h
                subst hb2
                exact goodBlock_append_pair _ _ _ _ _ hcur hnd
            · -- the delay slot is a Label: the body is not well-delayed
              simp [wellDelayed, hbr] at hwd
        · -- not a branch: append to the pending block
          have hstep : buildBlocksAux (Item.instr i :: rest) idx lbl cur acc =
              buildBlocksAux rest idx lbl (cur ++ [Item.instr i]) acc := by
            rcases rest with _ | ⟨d0, rest2⟩
            · simp [buildBlocksAux, hbr]
            · rcases d0 with d | dl <;> simp [buildBlocksAux, hbr]
          rw [hstep] at heq
          have hwd2 : wellDelayed rest = true := by
            rcases rest with _ | ⟨d0, rest2⟩
            · rfl
            · rcases d0 with d | dl <;> simpa [wellDelayed, hbr] using hwd
          have hlen2 : rest.length ≤ n := by
            simp only [List.length_cons] at hlen
            omega
          refine ih rest hlen2 _ _ _ _ _ hwd2 ?_ hacc heq blk hblk
          intro it hit
          rcases List.mem_append.mp hit with h | h
          · exact hcur it h
          · have h2 := List.mem_singleton.mp h
            subst h2
            refine ⟨i, rfl, ?_⟩
            simpa using hbr
      · -- a Label
        have hwd2 : wellDelayed rest = true := hwd
        have hlen2 : rest.length ≤ n := by
          simp only [List.length_cons] at hlen
          omega
        simp only [buildBlocksAux] at heq
        by_cases hc : cur.isEmpty
        · rw [if_pos hc] at heq
          exact ih rest hlen2 _ _ _ _ _ hwd2 (by intro it h; cases h) hacc heq blk hblk
        · rw [if_neg hc] at heq
          refine ih rest hlen2 _ _ _ _ _ hwd2 (by intro it h; cases h) ?_ heq blk hblk
          intro b hb
          rcases List.mem_append.mp hb with h | h
          · exact hacc b h
          · have hb2 := List.mem_singleton.mp h
            subst hb2
            exact goodBlock_of_nonBranch _ _ _ hcur

def c3body : List Item :=
  [.instr ⟨"b", [.jumpTarget "L1"]⟩,
   .instr ⟨"b", [.jumpTarget "L1"]⟩,
   .instr ⟨"nop", []⟩]

/-- C3: counterexample to the claim as stated.  On the body
`b .L1; b .L1; nop` (a branch in a delay slot) the builder emits a first
block whose LAST element, at position 1, is a branch instruction that is
followed by nothing, so "every branch is followed by exactly one more
Instruction in that same Block" fails. -/
theorem c3_claim_false :
    buildBlocks c3body =
      some [⟨0, none, [.instr ⟨"b", [.jumpTarget "L1"]⟩,
                       .instr ⟨"b", [.jumpTarget "L1"]⟩]⟩,
            ⟨1, none, [.instr ⟨"nop", []⟩]⟩] ∧
    (Instruction.is_branch_instruction ⟨"b", [.jumpTarget "L1"]⟩ = true) ∧
    ([Item.instr ⟨"b", [.jumpTarget "L1"]⟩,
      Item.instr ⟨"b", [.jumpTarget "L1"]⟩].get? 1 =
        some (.instr ⟨"b", [.jumpTarget "L1"]⟩)) ∧
    ([Item.instr ⟨"b", [.jumpTarget "L1"]⟩,
      Item.instr ⟨"b", [.jumpTarget "L1"]⟩].length ≠ 1 + 2) := by
  exact ⟨rfl, rfl, rfl, by decide⟩

/-- C3: the claim amended with the delay-slot well-formedness hypothesis.
For every Function body in which each branch instruction is immediately
followed by a non-branch Instruction, every Block produced by the block
builder contains only instructions, and each branch instruction in it is
followed by exactly one more Instruction (its delay slot) with nothing, in
particular no Label, after that pair. -/
theorem c3_delay_slot_blocks :
    ∀ (body : List Item) (blocks : List Block),
    wellDelayed body = true →
    buildBlocks body = some blocks →
    ∀ blk ∈ blocks, goodBlock blk := by
  intro body blocks hwd heq
  exact buildBlocksAux_good body.length body (Nat.le_refl _) 0 none [] [] blocks
    hwd (by intro it h; cases h) (by intro b h; cases h) heq

/-- C3 witness: the amended theorem applied to the concrete body
`b .L1; nop; nop`, whose first block is `[b, nop]`: the branch at position 0
is followed by exactly the delay slot. -/
theorem c3_delay_slot_blocks_witness :
    (wellDelayed [.instr ⟨"b", [.jumpTarget "L1"]⟩, .instr ⟨"nop", []⟩,
        .instr ⟨"nop", []⟩] = true) ∧
    goodBlock ⟨0, none, [.instr ⟨"b", [.jumpTarget "L1"]⟩, .instr ⟨"nop", []⟩]⟩ := by
  constructor
  · decide
  · exact c3_delay_slot_blocks
      [.instr ⟨"b", [.jumpTarget "L1"]⟩, .instr ⟨"nop", []⟩, .instr ⟨"nop", []⟩]
      [⟨0, none, [.instr ⟨"b", [.jumpTarget "L1"]⟩, .instr ⟨"nop", []⟩]⟩,
       ⟨1, none, [.instr ⟨"nop", []⟩]⟩]
      (by decide) rfl
      ⟨0, none, [.instr ⟨"b", [.jumpTarget "L1"]⟩, .instr ⟨"nop", []⟩]⟩
      (by simp)

/-! ## C4: when `parse_arg` returns None

`parse_arg` returns None for the empty operand string, but not ONLY then: a
whitespace-only operand is consumed entirely by the whitespace branch and the
loop ends with `value` still None.
-/

theorem parseArgElems_all_space :
    ∀ (l : List Char), (∀ c ∈ l, isPySpace c = true) →
    ∀ (f : Nat), l.length ≤ f → parseArgElems f l none = some (none, []) := by
  intro l
  induction l with
  | nil => intro _ f _; exact parseArgElems_nil f none
  | cons c rest ih =>
    intro h f hf
    match f with
    | 0 => simp at hf
    | f + 1 =>
      have hc : isPySpace c = true := h c (List.mem_cons_self _ _)
      have hrest : ∀ x ∈ rest, isPySpace x = true :=
        fun x hx => h x (List.mem_cons_of_mem _ hx)
      rw [parseArgElems_cons]
      unfold parseArgElemsStep
      rw [if_pos hc]
      exact ih hrest f (by simp at hf; omega)

/-- C4: counterexample to the claim as stated.  The operand string " " is
nonempty yet `parse_arg` returns None (and does not crash). -/
theorem c4_claim_false :
    parseArgChars [' '] = some none ∧ ([' '] : List Char) ≠ [] := by
  exact ⟨rfl, by decide⟩

/-- C4: the claim amended.  `parse_arg(s)` returns None whenever `s` is
empty or consists only of whitespace; in particular it returns None on the
empty string, but the converse of the original claim fails (see the
counterexample). -/
theorem c4_parse_none_on_blank :
    ∀ (l : List Char), (∀ c ∈ l, isPySpace c = true) →
    parseArgChars l = some none := by
  intro l h
  unfold parseArgChars
  rw [parseArgElems_all_space l h (l.length + 1) (Nat.le_succ _)]
  rfl

/-- C4 witness: the amended theorem applied to the two-character blank
operand string of a space and a tab. -/
theorem c4_parse_none_on_blank_witness :
    (∀ c ∈ [' ', '\t'], isPySpace c = true) ∧
    parseArgChars [' ', '\t'] = some none := by
  exact ⟨by decide, c4_parse_none_on_blank [' ', '\t'] (by decide)⟩


/-! ## C6: which `addiu sp, sp, N` determines the stack size

The prologue scan overwrites `allocated_stack_size` at EVERY `addiu` whose
destination register is `sp`, so the LAST such instruction wins, not the
first one as claimed.
-/

def isAddiuSp (i : Instruction) : Bool :=
  i.mnemonic == "addiu" &&
    (match i.args with
     | .register r :: _ => r.register_name == "sp"
     | _ => false)

def addiuImm (i : Instruction) : Option Int :=
  match i.args.get? 2 with
  | some (.numberLiteral n) => some n
  | _ => none

/-- The immediate of the first `addiu` to `sp` among the items.  This
follows the words of the claim ("the first `addiu sp, sp, -N` instruction"),
to be compared against the code. -/
def firstAddiuSpImm : List Item → Option Int
  | [] => none
  | .label _ :: rest => firstAddiuSpImm rest
  | .instr i :: rest =>
    if isAddiuSp i then addiuImm i else firstAddiuSpImm rest

/-- The immediate of the last `addiu` to `sp` among the items.  This follows
the words of the amended claim. -/
def lastAddiuSpImm : List Item → Option Int
  | [] => none
  | item :: rest =>
    match lastAddiuSpImm rest with
    | some n => some n
    | none =>
      match item with
      | .label _ => none
      | .instr i => if isAddiuSp i then addiuImm i else none

theorem stackStep_alloc (st : StackState) (mn : String) (args : List Argument)
    (st1 : StackState)
    (h : stackStep st (.instr ⟨mn, args⟩) = some st1) :
    (isAddiuSp ⟨mn, args⟩ = true ∧ ∃ n, addiuImm ⟨mn, args⟩ = some n ∧
        st1.allocated_stack_size = -n) ∨
    (isAddiuSp ⟨mn, args⟩ = false ∧
        st1.allocated_stack_size = st.allocated_stack_size) := by
  rcases args with _ | ⟨a0, args2⟩
  · simp only [stackStep] at h
    cases h
    right
    exact ⟨by simp [isAddiuSp], rfl⟩
  · rcases a0 with r | s | ⟨mname, marg⟩ | v | ⟨lhs, rhs⟩ | rhs | ⟨op, lh, rh⟩ | t
    · -- args[0] is a Register
      simp only [stackStep] at h
      by_cases hmn : (mn == "addiu") = true
      · rw [if_pos hmn] at h
        by_cases hsp : (r.register_name == "sp") = true
        · rw [if_pos hsp] at h
          split at h
          · rename_i n hg
            cases h
            left
            refine ⟨by simp [isAddiuSp, hmn, hsp], n, ?_, rfl⟩
            simp only [addiuImm]
            rw [hg]
          · cases h
        · rw [if_neg hsp] at h
          cases h
          right
          have hsp2 : (r.register_name == "sp") = false := by simpa using hsp
          exact ⟨by simp [isAddiuSp, hsp2], rfl⟩
      · rw [if_neg hmn] at h
        have hmn2 : (mn == "addiu") = false := by simpa using hmn
        right
        refine ⟨by simp [isAddiuSp, hmn2], ?_⟩
        by_cases hsw : (mn == "sw") = true
        · rw [if_pos hsw] at h
          by_cases hra : (r.register_name == "ra") = true
          · rw [if_pos hra] at h
            split at h
            all_goals try (split at h)
            all_goals (cases h <;> rfl)
          · rw [if_neg hra] at h
            by_cases hcs : r.is_callee_save = true
            · rw [if_pos hcs] at h
              split at h
              all_goals try (split at h)
              all_goals (cases h <;> rfl)
            · rw [if_neg hcs] at h
              cases h
              rfl
        · rw [if_neg hsw] at h
          cases h
          rfl
    all_goals (
      simp only [stackStep] at h
      by_cases hmn : (mn == "addiu") = true
      · rw [if_pos hmn] at h
        cases h
      · rw [if_neg hmn] at h
        by_cases hsw : (mn == "sw") = true
        · rw [if_pos hsw] at h
          cases h
        · rw [if_neg hsw] at h
          cases h
          right
          exact ⟨by simp [isAddiuSp], rfl⟩)

theorem stackFold_alloc :
    ∀ (items : List Item) (st st2 : StackState),
    items.foldlM stackStep st = some st2 →
    st2.allocated_stack_size =
      (match lastAddiuSpImm items with
       | some n => -n
       | none => st.allocated_stack_size) := by
  intro items
  induction items with
  | nil =>
    intro st st2 h
    cases h
    rfl
  | cons item rest ih =>
    intro st st2 h
    rw [List.foldlM_cons] at h
    rcases hstep : stackStep st item with - | st1
    · rw [hstep] at h
      cases h
    · rw [hstep] at h
      have h2 := ih st1 st2 (by simpa using h)
      rcases hlast : lastAddiuSpImm rest with - | n
      · rw [hlast] at h2
        simp only [lastAddiuSpImm, hlast]
        rcases item with i | l
        · rcases i with ⟨mn, args⟩
          rcases stackStep_alloc st mn args st1 hstep with
            ⟨hsp, n2, himm, halloc⟩ | ⟨hsp, halloc⟩
          · show st2.allocated_stack_size =
              (match (if isAddiuSp ⟨mn, args⟩ = true then addiuImm ⟨mn, args⟩
                      else none : Option Int) with
               | some n => -n
               | none => st.allocated_stack_size)
            rw [if_pos hsp, himm]
            exact h2.trans halloc
          · show st2.allocated_stack_size =
              (match (if isAddiuSp ⟨mn, args⟩ = true then addiuImm ⟨mn, args⟩
                      else none : Option Int) with
               | some n => -n
               | none => st.allocated_stack_size)
            have hneg : ¬(isAddiuSp ⟨mn, args⟩ = true) := by simp [hsp]
            rw [if_neg hneg]
            exact h2.trans halloc
        · simp [stackStep] at hstep
      · rw [hlast] at h2
        simp only [lastAddiuSpImm, hlast]
        exact h2

def c6items : List Item :=
  [.instr ⟨"addiu", [.register ⟨"sp"⟩, .register ⟨"sp"⟩, .numberLiteral (-16)]⟩,
   .instr ⟨"addiu", [.register ⟨"sp"⟩, .register ⟨"sp"⟩, .numberLiteral (-32)]⟩]

/-- C6: counterexample to the claim as stated.  On an entry block with
`addiu $sp, $sp, -0x10` followed by `addiu $sp, $sp, -0x20`,
`allocated_stack_size` ends as 32 (from the SECOND instruction), while the
absolute value of the immediate of the FIRST `addiu sp, sp, -N` is 16; the
later instruction does change the result. -/
theorem c6_claim_false :
    (findStackInfo c6items).map (fun info => info.allocated_stack_size) =
      some 32 ∧
    firstAddiuSpImm c6items = some (-16) ∧ (32 : Int) ≠ 16 := by
  exact ⟨rfl, rfl, by decide⟩

/-- C6: the claim amended.  After `find_stack_info` runs over the entry
block, `allocated_stack_size` equals the NEGATED immediate of the LAST
`addiu` with destination `sp` in that block (0 when there is none): each
such instruction overwrites the previous value. -/
theorem c6_alloc_last_addiu :
    ∀ (items : List Item) (info : StackInfo), findStackInfo items = some info →
    info.allocated_stack_size =
      (match lastAddiuSpImm items with
       | some n => -n
       | none => 0) := by
  intro items info h
  unfold findStackInfo at h
  rcases hf : items.foldlM stackStep ⟨0, true, 0, []⟩ with - | st
  · rw [hf] at h
    cases h
  · rw [hf] at h
    cases h
    exact stackFold_alloc items ⟨0, true, 0, []⟩ st hf

def c6w : List Item :=
  [.instr ⟨"addiu", [.register ⟨"sp"⟩, .register ⟨"sp"⟩, .numberLiteral (-32)]⟩]

/-- C6 witness: the amended theorem applied to the one-instruction prologue
`addiu $sp, $sp, -0x20`. -/
theorem c6_alloc_last_addiu_witness :
    findStackInfo c6w = some ⟨⟨32, true, 0, []⟩, 0⟩ ∧
    (⟨⟨32, true, 0, []⟩, 0⟩ : StackInfo).allocated_stack_size =
      (match lastAddiuSpImm c6w with
       | some n => -n
       | none => 0) := by
  exact ⟨rfl, c6_alloc_last_addiu c6w ⟨⟨32, true, 0, []⟩, 0⟩ rfl⟩

/-! ## C7: the local-variable region bounds

`local_vars_region_bottom ≤ allocated_stack_size` does NOT hold for every
analysed function: a prologue that stores `$ra` without ever moving `$sp`
gets `bottom = return_addr_location + 4 = 4` but `allocated_stack_size = 0`.
Under that inequality as a hypothesis, the claimed characterisation of
`in_local_var_region` at the bottom bound does hold.
-/

def c7items : List Item :=
  [.instr ⟨"sw", [.register ⟨"ra"⟩, .addressModeNoLhs (.register ⟨"sp"⟩)]⟩]

/-- C7: counterexample to the claim as stated.  For the entry block
`sw $ra, ($sp)` (no stack allocation), `find_stack_info` succeeds with
`local_vars_region_bottom = 4` and `allocated_stack_size = 0`, so
`local_vars_region_bottom ≤ allocated_stack_size` is false (and so is the
claimed equivalence, since the bounds differ while `in_local_var_region(4)`
is false). -/
theorem c7_claim_false :
    findStackInfo c7items = some ⟨⟨0, false, 0, []⟩, 4⟩ ∧
    ¬((4 : Int) ≤ (0 : Int)) ∧
    ¬inLocalVarRegion ⟨⟨0, false, 0, []⟩, 4⟩ 4 ∧ (4 : Int) ≠ (0 : Int) := by
  exact ⟨rfl, by decide, by decide, by decide⟩

/-- C7: the claim amended.  For every function analysed by
`find_stack_info`, IF `local_vars_region_bottom ≤ allocated_stack_size`
(which can fail, see the counterexample), then
`in_local_var_region(local_vars_region_bottom)` holds exactly when the two
bounds differ. -/
theorem c7_local_var_region_iff :
    ∀ (items : List Item) (info : StackInfo), findStackInfo items = some info →
    info.local_vars_region_bottom ≤ info.allocated_stack_size →
    (inLocalVarRegion info info.local_vars_region_bottom ↔
      info.local_vars_region_bottom ≠ info.allocated_stack_size) := by
  intro items info _ hle
  unfold inLocalVarRegion
  constructor
  · rintro ⟨-, hlt⟩ heq
    omega
  · intro hne
    exact ⟨Int.le_refl _, lt_of_le_of_ne hle hne⟩

def c7w : List Item :=
  [.instr ⟨"addiu", [.register ⟨"sp"⟩, .register ⟨"sp"⟩, .numberLiteral (-32)]⟩,
   .instr ⟨"sw", [.register ⟨"ra"⟩, .addressMode (.numberLiteral 28) (.register ⟨"sp"⟩)]⟩,
   .instr ⟨"sw", [.register ⟨"s0"⟩, .addressMode (.numberLiteral 24) (.register ⟨"sp"⟩)]⟩]

/-- C7 witness: the amended theorem applied to the spec scenario-6 prologue
`addiu $sp,$sp,-0x20; sw $ra,0x1c($sp); sw $s0,0x18($sp)`, where both bounds
are 32 and `in_local_var_region(32)` is accordingly false. -/
theorem c7_local_var_region_iff_witness :
    findStackInfo c7w = some ⟨⟨32, false, 28, [(⟨"s0"⟩, 24)]⟩, 32⟩ ∧
    (inLocalVarRegion ⟨⟨32, false, 28, [(⟨"s0"⟩, 24)]⟩, 32⟩ 32 ↔
      (32 : Int) ≠ (32 : Int)) := by
  refine ⟨rfl, ?_⟩
  exact c7_local_var_region_iff c7w ⟨⟨32, false, 28, [(⟨"s0"⟩, 24)]⟩, 32⟩ rfl
    (by decide)

/-! ## C8: the recognised mnemonic set

The spec's authoritative list (section 6) below includes `mul.d`, but the
alias table maps `mul.d` to `mulu`, which belongs to no handler table, so
`mul.d` reaches the fatal fall-through.  Every other listed mnemonic
dispatches, and everything outside the list is fatal.
-/

def recognisedSpecMnemonics : List String :=
  ["sb", "sh", "sw", "swc1", "sdc1", "mtc1", "b", "beq", "bne", "beqz",
   "bnez", "blez", "bgtz", "bltz", "bgez", "bc1t", "bc1f", "jal", "jr",
   "c.eq.s", "c.le.s", "c.lt.s", "lui", "ori", "addi", "slt", "slti",
   "addu", "multu", "subu", "div", "negu", "mfhi", "mflo", "div.s",
   "cvt.d.s", "cvt.s.d", "cvt.w.d", "trunc.w.s", "trunc.w.d", "and", "or",
   "xor", "andi", "xori", "sll", "srl", "move", "mfc1", "li", "lb", "lh",
   "lw", "lbu", "lhu", "lwu", "lwc1", "ldc1", "nop", "addiu", "divu",
   "add.s", "mul.s", "sub.s", "add.d", "div.d", "mul.d", "sub.d",
   "cvt.d.w", "cvt.s.w", "cvt.w.s", "c.lt.d", "c.eq.d", "c.le.d", "sra",
   "sltiu", "sltu"]

/-- Does a lift result come from the fatal "unknown mnemonic" branch? -/
def reachedUnknown (r : Except LiftErr (RegMap × List Expr)) : Bool :=
  match r with
  | .error (.unknownMnemonic _) => true
  | _ => false

theorem reachedUnknown_liftCrash (o : Option (RegMap × List Expr)) :
    reachedUnknown (liftCrash o) = false := by
  cases o <;> rfl

/-- A canonical mnemonic is dispatched iff it is `nop` or a key of one of
the seven handler tables (transcribed from the if/elif chain). -/
def dispatchKnown (c : String) : Bool :=
  c == "nop" || casesSourceFirstExpressionKeys.contains c ||
    casesSourceFirstRegisterKeys.contains c || casesBranchesKeys.contains c ||
    casesFloatBranchesKeys.contains c || casesJumpsKeys.contains c ||
    casesFloatCompKeys.contains c || casesSpecialKeys.contains c ||
    casesDestinationFirstKeys.contains c

theorem reachedUnknown_translateInstr (m : String) (args : List Argument)
    (reg : RegMap) (ts : List Expr) :
    reachedUnknown (translateInstr ⟨m, args⟩ reg ts) =
      !dispatchKnown (canonicalMnemonic m) := by
  unfold translateInstr
  by_cases h1 : (canonicalMnemonic m == "nop") = true
  · rw [if_pos h1]
    have h1e : canonicalMnemonic m = "nop" := by simpa using h1
    simp [reachedUnknown, dispatchKnown, h1e]
  · rw [if_neg h1]
    by_cases h2 : (casesSourceFirstExpressionKeys.contains (canonicalMnemonic m)) = true
    · rw [if_pos h2, reachedUnknown_liftCrash]
      have h2m : canonicalMnemonic m ∈ casesSourceFirstExpressionKeys := by simpa using h2
      simp [dispatchKnown, h2m]
    · rw [if_neg h2]
      by_cases h3 : (casesSourceFirstRegisterKeys.contains (canonicalMnemonic m)) = true
      · rw [if_pos h3, reachedUnknown_liftCrash]
        have h3m : canonicalMnemonic m ∈ casesSourceFirstRegisterKeys := by simpa using h3
        simp [dispatchKnown, h3m]
      · rw [if_neg h3]
        by_cases h4 : (casesBranchesKeys.contains (canonicalMnemonic m)) = true
        · rw [if_pos h4]
          have h4m : canonicalMnemonic m ∈ casesBranchesKeys := by simpa using h4
          simp [reachedUnknown, reachedUnknown_liftCrash, dispatchKnown, h4m]
        · rw [if_neg h4]
          by_cases h5 : (casesFloatBranchesKeys.contains (canonicalMnemonic m)) = true
          · rw [if_pos h5]
            have h5m : canonicalMnemonic m ∈ casesFloatBranchesKeys := by simpa using h5
            simp [reachedUnknown, reachedUnknown_liftCrash, dispatchKnown, h5m]
          · rw [if_neg h5]
            by_cases h6 : (casesJumpsKeys.contains (canonicalMnemonic m)) = true
            · rw [if_pos h6, reachedUnknown_liftCrash]
              have h6m : canonicalMnemonic m ∈ casesJumpsKeys := by simpa using h6
              simp [dispatchKnown, h6m]
            · rw [if_neg h6]
              by_cases h7 : (casesFloatCompKeys.contains (canonicalMnemonic m)) = true
              · rw [if_pos h7]
                have h7m : canonicalMnemonic m ∈ casesFloatCompKeys := by simpa using h7
                simp [reachedUnknown, reachedUnknown_liftCrash, dispatchKnown, h7m]
              · rw [if_neg h7]
                by_cases h8 : (casesSpecialKeys.contains (canonicalMnemonic m)) = true
                · rw [if_pos h8, reachedUnknown_liftCrash]
                  have h8m : canonicalMnemonic m ∈ casesSpecialKeys := by simpa using h8
                  simp [dispatchKnown, h8m]
                · rw [if_neg h8]
                  by_cases h9 : (casesDestinationFirstKeys.contains (canonicalMnemonic m)) = true
                  · rw [if_pos h9, reachedUnknown_liftCrash]
                    have h9m : canonicalMnemonic m ∈ casesDestinationFirstKeys := by simpa using h9
                    simp [dispatchKnown, h9m]
                  · rw [if_neg h9]
                    have n1 : canonicalMnemonic m ≠ "nop" := by simpa using h1
                    have n2 : canonicalMnemonic m ∉ casesSourceFirstExpressionKeys := by simpa using h2
                    have n3 : canonicalMnemonic m ∉ casesSourceFirstRegisterKeys := by simpa using h3
                    have n4 : canonicalMnemonic m ∉ casesBranchesKeys := by simpa using h4
                    have n5 : canonicalMnemonic m ∉ casesFloatBranchesKeys := by simpa using h5
                    have n6 : canonicalMnemonic m ∉ casesJumpsKeys := by simpa using h6
                    have n7 : canonicalMnemonic m ∉ casesFloatCompKeys := by simpa using h7
                    have n8 : canonicalMnemonic m ∉ casesSpecialKeys := by simpa using h8
                    have n9 : canonicalMnemonic m ∉ casesDestinationFirstKeys := by simpa using h9
                    simp [reachedUnknown, dispatchKnown, n1, n2, n3, n4, n5, n6, n7, n8, n9]

/-- C8: counterexample to the claim as stated.  `mul.d` belongs to the
recognised set of section 6, yet dispatching it reaches the fatal branch:
the alias table rewrites it to the canonical mnemonic `mulu`, which no
handler table contains. -/
theorem c8_claim_false :
    recognisedSpecMnemonics.contains "mul.d" = true ∧
    translateInstr ⟨"mul.d", [.register ⟨"f0"⟩, .register ⟨"f2"⟩,
        .register ⟨"f4"⟩]⟩ [] [] = .error (.unknownMnemonic "mulu") := by
  exact ⟨rfl, rfl⟩

/-- C8: the claim amended.  For every instruction, the lifter's dispatch
reaches the fatal "unknown mnemonic" branch exactly when the mnemonic lies
outside the recognised set of section 6 OR is `mul.d` (whose alias `mulu`
exists in no table); in particular every other recognised mnemonic is
dispatched without reaching that branch, whatever its arguments and register
map. -/
theorem c8_dispatch_characterised :
    ∀ (m : String) (args : List Argument) (reg : RegMap) (ts : List Expr),
    reachedUnknown (translateInstr ⟨m, args⟩ reg ts) =
      (!(recognisedSpecMnemonics.contains m) || m == "mul.d") := by
  intro m args reg ts
  rw [reachedUnknown_translateInstr]
  by_cases hm : m ∈ recognisedSpecMnemonics
  · fin_cases hm <;> rfl
  · have hc : recognisedSpecMnemonics.contains m = false := by
      simpa using hm
    have hmul : (m == "mul.d") = false := by
      have hne : m ≠ "mul.d" := fun e => hm (by rw [e]; decide)
      simpa using hne
    rw [hc, hmul]
    have hcanon : canonicalMnemonic m = m := by
      unfold canonicalMnemonic
      have hfind : casesRepeats.find? (fun p => p.1 == m) = none := by
        rw [List.find?_eq_none]
        intro p hp
        fin_cases hp <;>
          (simp only [beq_iff_eq]
           intro e
           exact hm (by rw [← e]; decide))
      rw [hfind]
    rw [hcanon]
    have k1 : m ≠ "nop" := fun e => hm (by rw [e]; decide)
    have k2 : m ∉ casesSourceFirstExpressionKeys :=
      fun hin => hm (by fin_cases hin <;> decide)
    have k3 : m ∉ casesSourceFirstRegisterKeys :=
      fun hin => hm (by fin_cases hin <;> decide)
    have k4 : m ∉ casesBranchesKeys :=
      fun hin => hm (by fin_cases hin <;> decide)
    have k5 : m ∉ casesFloatBranchesKeys :=
      fun hin => hm (by fin_cases hin <;> decide)
    have k6 : m ∉ casesJumpsKeys :=
      fun hin => hm (by fin_cases hin <;> decide)
    have k7 : m ∉ casesFloatCompKeys :=
      fun hin => hm (by fin_cases hin <;> decide)
    have k8 : m ∉ casesSpecialKeys :=
      fun hin => hm (by fin_cases hin <;> decide)
    have k9 : m ∉ casesDestinationFirstKeys :=
      fun hin => hm (by fin_cases hin <;> decide)
    simp [dispatchKnown, k1, k2, k3, k4, k5, k6, k7, k8, k9]

/-! ## C10: which blocks are lifted, and with what register map

`translate_to_ast` walks the nodes with `enumerate`, skipping index 0 and
building one fresh `{Register('zero'): NumberLiteral(0)}` map per call; that
enumerate-and-skip scheme lifts exactly the nodes after the first.
-/

theorem enumFrom_map_snd {α β : Type} (g : α → β) :
    ∀ (l : List α) (n : Nat),
    (List.enumFrom n l).map (fun p => g p.2) = l.map g := by
  intro l
  induction l with
  | nil => intro n; rfl
  | cons x xs ih =>
    intro n
    simp [List.enumFrom, ih (n + 1)]

theorem enumFrom_filter_pos {α : Type} :
    ∀ (l : List α) (n : Nat),
    (List.enumFrom (n + 1) l).filter (fun p => p.1 != 0) =
      List.enumFrom (n + 1) l := by
  intro l
  induction l with
  | nil => intro n; rfl
  | cons x xs ih =>
    intro n
    simp only [List.enumFrom, List.filter]
    have : ((n + 1, x).1 != 0) = true := by simp
    rw [this]
    rw [ih (n + 1)]

theorem enum_filter_ne_zero {α β : Type} (g : α → β) (l : List α) :
    ((List.enum l).filter (fun p => p.1 != 0)).map (fun p => g p.2) =
      (l.drop 1).map g := by
  cases l with
  | nil => rfl
  | cons x xs =>
    have hfp := enumFrom_filter_pos xs 0
    rw [Nat.zero_add] at hfp
    rw [List.enum_cons]
    have hdrop : List.filter (fun p => p.1 != 0)
        (((0 : Nat), x) :: List.enumFrom 1 xs) =
        List.filter (fun p => p.1 != 0) (List.enumFrom 1 xs) := by
      rw [List.filter_cons]
      simp
    rw [hdrop, hfp, enumFrom_map_snd]
    rfl

/-- C10: confirmed.  Whenever `translate_to_ast` completes its setup (flow
analysis and stack info), the sequence of lifting calls it performs is
exactly one `translate_block_body` per node of the flow analysis EXCEPT the
node at index 0, in order, and each call receives the fresh register map
`{Register("zero"): NumberLiteral(0)}` (no register state flows between the
blocks or into the skipped entry block). -/
theorem c10_lift_schedule :
    ∀ (fuel : Nat) (body : List Item) (info : StackInfo)
      (lifts : List (Block × Except LiftErr (RegMap × List Expr))),
    translateToAst fuel body = some (info, lifts) →
    ∃ fa, doFlowAnalysis fuel body = some fa ∧
      lifts = (fa.nodes.drop 1).map
        (fun n => (n.block, translateBlockBody n.block initialRegMap)) ∧
      initialRegMap = [(⟨"zero"⟩, .arg (.numberLiteral 0))] := by
  intro fuel body info lifts h
  unfold translateToAst at h
  split at h
  · cases h
  · rename_i fa hfa
    split at h
    · cases h
    · rename_i startNode hs
      split at h
      · cases h
      · rename_i info2 hi
        cases h
        refine ⟨fa, hfa, ?_, rfl⟩
        exact enum_filter_ne_zero
          (fun n => (n.block, translateBlockBody n.block initialRegMap))
          fa.nodes

def c10body : List Item :=
  [.instr ⟨"b", [.jumpTarget "LX"]⟩,
   .instr ⟨"nop", []⟩,
   .label ⟨"LX"⟩,
   .instr ⟨"jr", [.register ⟨"ra"⟩]⟩,
   .instr ⟨"nop", []⟩]

def c10blk1 : Block :=
  ⟨1, some ⟨"LX"⟩, [.instr ⟨"jr", [.register ⟨"ra"⟩]⟩, .instr ⟨"nop", []⟩]⟩

/-- C10 witness: the theorem applied to a two-block function, whose flow
analysis succeeds; only the second block is lifted, from the fresh map. -/
theorem c10_lift_schedule_witness :
    translateToAst 8 c10body = some (⟨⟨0, true, 0, []⟩, 0⟩,
      [(c10blk1, .ok ([(⟨"zero"⟩, .arg (.numberLiteral 0))], []))]) ∧
    (∃ fa, doFlowAnalysis 8 c10body = some fa ∧
      [(c10blk1, .ok ([(⟨"zero"⟩, .arg (.numberLiteral 0))], []))] =
        (fa.nodes.drop 1).map
          (fun n => (n.block, translateBlockBody n.block initialRegMap)) ∧
      initialRegMap = [(⟨"zero"⟩, .arg (.numberLiteral 0))]) := by
  exact ⟨rfl, c10_lift_schedule 8 c10body ⟨⟨0, true, 0, []⟩, 0⟩
    [(c10blk1, .ok ([(⟨"zero"⟩, .arg (.numberLiteral 0))], []))] rfl⟩

/-! ## C9: round-trip of canonical operand strings

Stage 1: Python's `hex()` and the inverse direction of `literal_eval` text
for the strings `hex()` produces.
-/

def hexDigitChar (d : Nat) : Char :=
  if d < 10 then Char.ofNat (48 + d) else Char.ofNat (87 + d)

/-- Little-endian base-16 digits, with explicit fuel (`fuel ≥ n` suffices
since the argument at least halves each step). -/
def natHexDigitsLE : Nat → Nat → List Nat
  | _, 0 => []
  | 0, _ + 1 => []
  | fuel + 1, n + 1 => (n + 1) % 16 :: natHexDigitsLE fuel ((n + 1) / 16)

/-- `hex(n)` without the `0x` prefix, for natural n. -/
def natToHexChars (n : Nat) : List Char :=
  if n = 0 then ['0'] else ((natHexDigitsLE n n).map hexDigitChar).reverse

/-- Python `hex(v)`: `-0x...` for negative v, `0x...` otherwise. -/
def pythonHex (v : Int) : List Char :=
  if v < 0 then '-' :: '0' :: 'x' :: natToHexChars v.natAbs
  else '0' :: 'x' :: natToHexChars v.toNat

def ofHexDigitsLE : List Nat → Nat
  | [] => 0
  | d :: ds => d + 16 * ofHexDigitsLE ds

theorem natHexDigitsLE_sound :
    ∀ (fuel n : Nat), n ≤ fuel → ofHexDigitsLE (natHexDigitsLE fuel n) = n := by
  intro fuel
  induction fuel with
  | zero =>
    intro n hn
    have : n = 0 := Nat.le_zero.mp hn
    subst this
    rfl
  | succ fuel ih =>
    intro n hn
    match n with
    | 0 => rfl
    | n + 1 =>
      have hdiv : (n + 1) / 16 ≤ fuel := by
        have h1 : (n + 1) / 16 < n + 1 := Nat.div_lt_self (Nat.succ_pos n) (by omega)
        omega
      show (n + 1) % 16 + 16 * ofHexDigitsLE (natHexDigitsLE fuel ((n + 1) / 16)) = n + 1
      rw [ih _ hdiv]
      omega

theorem natHexDigitsLE_lt :
    ∀ (fuel n : Nat), ∀ d ∈ natHexDigitsLE fuel n, d < 16 := by
  intro fuel
  induction fuel with
  | zero =>
    intro n d hd
    match n with
    | 0 => cases hd
    | n + 1 => cases hd
  | succ fuel ih =>
    intro n d hd
    match n with
    | 0 => cases hd
    | n + 1 =>
      rcases List.mem_cons.mp hd with h | h
      · subst h
        exact Nat.mod_lt _ (by omega)
      · exact ih _ d h

theorem natHexDigitsLE_ne_nil (fuel n : Nat) (h1 : 0 < n) (h2 : n ≤ fuel) :
    natHexDigitsLE fuel n ≠ [] := by
  match fuel, n with
  | 0, n => omega
  | fuel + 1, 0 => omega
  | fuel + 1, n + 1 =>
    intro he
    cases he

theorem hexCharVal_hexDigitChar (d : Nat) (h : d < 16) :
    hexCharVal (hexDigitChar d) = d := by
  interval_cases d <;> decide

theorem isHexDigitChar_hexDigitChar (d : Nat) (h : d < 16) :
    isHexDigitChar (hexDigitChar d) = true := by
  interval_cases d <;> decide

theorem isValidNumberChar_hexDigitChar (d : Nat) (h : d < 16) :
    isValidNumberChar (hexDigitChar d) = true := by
  interval_cases d <;> decide

theorem hexFold_reverse_map :
    ∀ (ds : List Nat), (∀ d ∈ ds, d < 16) → ∀ (a : Nat),
    List.foldl (fun acc c => 16 * acc + hexCharVal c) a
      ((ds.map hexDigitChar).reverse) =
      a * 16 ^ ds.length + ofHexDigitsLE ds := by
  intro ds
  induction ds with
  | nil => intro _ a; simp [ofHexDigitsLE]
  | cons d ds ih =>
    intro h a
    have hd : d < 16 := h d (List.mem_cons_self _ _)
    have hds : ∀ x ∈ ds, x < 16 := fun x hx => h x (List.mem_cons_of_mem _ hx)
    simp only [List.map_cons, List.reverse_cons, List.foldl_append, List.foldl_cons,
      List.foldl_nil]
    rw [ih hds a]
    rw [hexCharVal_hexDigitChar d hd]
    show 16 * (a * 16 ^ ds.length + ofHexDigitsLE ds) + d =
      a * 16 ^ (d :: ds).length + (d + 16 * ofHexDigitsLE ds)
    rw [List.length_cons]
    ring

theorem hexDigitsVal_natToHexChars (n : Nat) :
    hexDigitsVal (natToHexChars n) = n := by
  by_cases h : n = 0
  · subst h
    decide
  · unfold natToHexChars
    rw [if_neg h]
    unfold hexDigitsVal
    rw [hexFold_reverse_map _ (natHexDigitsLE_lt n n)]
    rw [natHexDigitsLE_sound n n (Nat.le_refl _)]
    simp

theorem natToHexChars_ne_nil (n : Nat) : natToHexChars n ≠ [] := by
  by_cases h : n = 0
  · subst h
    decide
  · unfold natToHexChars
    rw [if_neg h]
    intro he
    have := natHexDigitsLE_ne_nil n n (Nat.pos_of_ne_zero h) (Nat.le_refl _)
    apply this
    have : (natHexDigitsLE n n).map hexDigitChar = [] := by
      have := List.reverse_eq_nil_iff.mp he
      exact this
    exact List.map_eq_nil.mp this

theorem natToHexChars_all_hex (n : Nat) :
    ∀ c ∈ natToHexChars n, isHexDigitChar c = true := by
  by_cases h : n = 0
  · subst h
    decide
  · unfold natToHexChars
    rw [if_neg h]
    intro c hc
    have hc2 := List.mem_reverse.mp hc
    rcases List.mem_map.mp hc2 with ⟨d, hd, he⟩
    subst he
    exact isHexDigitChar_hexDigitChar d (natHexDigitsLE_lt n n d hd)

theorem natToHexChars_all_number (n : Nat) :
    ∀ c ∈ natToHexChars n, isValidNumberChar c = true := by
  by_cases h : n = 0
  · subst h
    decide
  · unfold natToHexChars
    rw [if_neg h]
    intro c hc
    have hc2 := List.mem_reverse.mp hc
    rcases List.mem_map.mp hc2 with ⟨d, hd, he⟩
    subst he
    exact isValidNumberChar_hexDigitChar d (natHexDigitsLE_lt n n d hd)

theorem pyEvalNonneg_hex_step (ds : List Char) :
    pyEvalNonneg ('0' :: 'x' :: ds) =
      if ds ≠ [] ∧ ds.all isHexDigitChar then some (hexDigitsVal ds)
      else none := rfl

theorem pyEvalNonneg_hex (n : Nat) :
    pyEvalNonneg ('0' :: 'x' :: natToHexChars n) = some n := by
  rw [pyEvalNonneg_hex_step]
  rw [if_pos]
  · rw [hexDigitsVal_natToHexChars]
  · refine ⟨natToHexChars_ne_nil n, ?_⟩
    rw [List.all_eq_true]
    intro c hc
    exact natToHexChars_all_hex n c hc

theorem pyLiteralEvalInt_pythonHex (v : Int) :
    pyLiteralEvalInt (pythonHex v) = some v := by
  unfold pythonHex
  by_cases hv : v < 0
  · rw [if_pos hv]
    show (pyEvalNonneg ('0' :: 'x' :: natToHexChars v.natAbs)).map
      (fun n => -(n : Int)) = some v
    rw [pyEvalNonneg_hex]
    show some (-((v.natAbs : Nat) : Int)) = some v
    congr 1
    omega
  · rw [if_neg hv]
    show (pyEvalNonneg ('0' :: 'x' :: natToHexChars v.toNat)).map
      (fun n => (n : Int)) = some v
    rw [pyEvalNonneg_hex]
    show some ((v.toNat : Int)) = some v
    congr 1
    omega

theorem pythonHex_all_number (v : Int) :
    ∀ c ∈ pythonHex v, isValidNumberChar c = true := by
  unfold pythonHex
  by_cases hv : v < 0
  · rw [if_pos hv]
    intro c hc
    rcases List.mem_cons.mp hc with h | hc
    · subst h; decide
    rcases List.mem_cons.mp hc with h | hc
    · subst h; decide
    rcases List.mem_cons.mp hc with h | hc
    · subst h; decide
    exact natToHexChars_all_number _ c hc
  · rw [if_neg hv]
    intro c hc
    rcases List.mem_cons.mp hc with h | hc
    · subst h; decide
    rcases List.mem_cons.mp hc with h | hc
    · subst h; decide
    exact natToHexChars_all_number _ c hc

/-! Stage 2: `parse_word` on a clean boundary, character-class facts, and
one-step reductions of the parser loop for each leading character. -/

theorem parseWord_append (valid : Char → Bool) :
    ∀ (w : List Char), (∀ c ∈ w, valid c = true) →
    ∀ (r : List Char), (∀ c, r.head? = some c → valid c = false) →
    parseWord valid (w ++ r) = (w, r) := by
  intro w
  induction w with
  | nil =>
    intro _ r hr
    cases r with
    | nil => rfl
    | cons c r2 =>
      have hc := hr c rfl
      show parseWord valid (c :: r2) = ([], c :: r2)
      unfold parseWord
      rw [if_neg (by simp [hc])]
  | cons c w ih =>
    intro hw r hr
    have hc : valid c = true := hw c (List.mem_cons_self _ _)
    have hrec := ih (fun x hx => hw x (List.mem_cons_of_mem _ hx)) r hr
    show parseWord valid (c :: (w ++ r)) = (c :: w, r)
    unfold parseWord
    rw [if_pos hc, hrec]

theorem validWord_ne (c : Char) (h : isValidWordChar c = true) (d : Char)
    (hd : isValidWordChar d = false) : (c == d) = false := by
  apply beq_eq_false_iff_ne.mpr
  intro e
  subst e
  rw [h] at hd
  cases hd

theorem validWord_not_space (c : Char) (h : isValidWordChar c = true) :
    isPySpace c = false := by
  simp only [isPySpace]
  rw [validWord_ne c h ' ' (by decide), validWord_ne c h '\t' (by decide),
    validWord_ne c h '\n' (by decide), validWord_ne c h '\r' (by decide),
    validWord_ne c h '\x0b' (by decide), validWord_ne c h '\x0c' (by decide)]
  rfl

/-- The `)`-or-end continuations on which a canonical parse may stop. -/
def headOk : List Char → Bool
  | [] => true
  | c :: _ => c == ')'

theorem headOk_not_valid (r : List Char) (hr : headOk r = true)
    (valid : Char → Bool) (hparen : valid ')' = false) :
    ∀ c, r.head? = some c → valid c = false := by
  intro c hc
  cases r with
  | nil => cases hc
  | cons c2 r2 =>
    have : c2 = ')' := by simpa [headOk] using hr
    subst this
    cases hc
    exact hparen

theorem parseArgElems_terminal (f : Nat) (v : Option Argument) :
    ∀ (r : List Char), headOk r = true →
    parseArgElems (f + 1) r v = some (v, r) := by
  intro r hr
  cases r with
  | nil => exact parseArgElems_nil _ v
  | cons c r2 =>
    have hc : c = ')' := by simpa [headOk] using hr
    subst hc
    rw [parseArgElems_cons]
    rfl

theorem step_dollar (recur : List Char → Option Argument →
      Option (Option Argument × List Char)) (rest : List Char) :
    parseArgElemsStep recur '$' rest none =
      (match parseWord isValidWordChar rest with
       | (w, r) => recur r (some (.register ⟨String.mk w⟩))) := rfl

theorem step_dot (recur : List Char → Option Argument →
      Option (Option Argument × List Char)) (rest : List Char) :
    parseArgElemsStep recur '.' rest none =
      (match parseWord isValidWordChar rest with
       | (w, r) => recur r (some (.jumpTarget (String.mk w)))) := rfl

theorem step_percent (recur : List Char → Option Argument →
      Option (Option Argument × List Char)) (rest : List Char) :
    parseArgElemsStep recur '%' rest none =
      (match parseWord isValidWordChar rest with
       | (w, r) =>
         if w = ['h', 'i'] ∨ w = ['l', 'o'] then
           match r with
           | '(' :: r2 =>
             match recur r2 none with
             | some (some m, ')' :: r3) =>
               recur r3 (some (.macroArg (String.mk w) m))
             | _ => none
           | _ => none
         else none) := rfl

theorem step_lparen_none (recur : List Char → Option Argument →
      Option (Option Argument × List Char)) (rest : List Char) :
    parseArgElemsStep recur '(' rest none =
      (match recur rest none with
       | some (some rhs, ')' :: r2) => recur r2 (some (.addressModeNoLhs rhs))
       | _ => none) := rfl

theorem step_lparen_num (recur : List Char → Option Argument →
      Option (Option Argument × List Char)) (rest : List Char) (n : Int) :
    parseArgElemsStep recur '(' rest (some (.numberLiteral n)) =
      (match recur rest none with
       | some (some rhs, ')' :: r2) =>
         recur r2 (some (.addressMode (.numberLiteral n) rhs))
       | _ => none) := rfl

theorem step_lparen_macro (recur : List Char → Option Argument →
      Option (Option Argument × List Char)) (rest : List Char)
    (mn : String) (ma : Argument) :
    parseArgElemsStep recur '(' rest (some (.macroArg mn ma)) =
      (match recur rest none with
       | some (some rhs, ')' :: r2) =>
         recur r2 (some (.addressMode (.macroArg mn ma) rhs))
       | _ => none) := rfl

theorem step_minus (recur : List Char → Option Argument →
      Option (Option Argument × List Char)) (rest : List Char) :
    parseArgElemsStep recur '-' rest none =
      (match parseWord isValidNumberChar ('-' :: rest) with
       | (w, r) =>
         match pyLiteralEvalInt w with
         | some n => recur r (some (.numberLiteral n))
         | none => none) := rfl

theorem step_zero (recur : List Char → Option Argument →
      Option (Option Argument × List Char)) (rest : List Char) :
    parseArgElemsStep recur '0' rest none =
      (match parseWord isValidNumberChar ('0' :: rest) with
       | (w, r) =>
         match pyLiteralEvalInt w with
         | some n => recur r (some (.numberLiteral n))
         | none => none) := rfl

theorem step_word (recur : List Char → Option Argument →
      Option (Option Argument × List Char)) (tok : Char) (rest : List Char)
    (h : isValidWordChar tok = true) (hd : tok.isDigit = false) :
    parseArgElemsStep recur tok rest none =
      (match parseWord isValidWordChar (tok :: rest) with
       | (w, r) => recur r (some (.globalSymbol (String.mk w)))) := by
  unfold parseArgElemsStep
  rw [if_neg (by simp [validWord_not_space tok h])]
  rw [if_neg (by simp [validWord_ne tok h '$' (by decide)])]
  rw [if_neg (by simp [validWord_ne tok h '.' (by decide)])]
  rw [if_neg (by simp [validWord_ne tok h '%' (by decide)])]
  rw [if_neg (by simp [validWord_ne tok h ')' (by decide)])]
  rw [if_neg (by simp [validWord_ne tok h '-' (by decide), hd])]
  rw [if_neg (by simp [validWord_ne tok h '(' (by decide)])]
  rw [if_pos h]

/-! Stage 3: canonical Arguments, their `__str__` serialisation, and the
composed parse of a serialised number. -/

/-- The canonical shapes of `__str__` output that the parser accepts back:
word characters in names, nonempty non-digit-leading global symbols, only
`hi`/`lo` macro names, NumberLiteral or Macro offsets in address modes, and
no BinOp (the form the round-trip claim excludes). -/
def canonArg : Argument → Bool
  | .register r => r.register_name.data.all isValidWordChar
  | .globalSymbol s =>
    match s.data with
    | [] => false
    | c :: _ => !c.isDigit && s.data.all isValidWordChar
  | .macroArg n a => (n == "hi" || n == "lo") && canonArg a
  | .numberLiteral _ => true
  | .addressMode lhs rhs =>
    (match lhs with
     | .numberLiteral _ => true
     | .macroArg _ _ => true
     | _ => false) && canonArg lhs && canonArg rhs
  | .addressModeNoLhs rhs => canonArg rhs
  | .binOp _ _ _ => false
  | .jumpTarget t => t.data.all isValidWordChar

/-- The `__str__` methods of the Argument classes, as character lists. -/
def argStr : Argument → List Char
  | .register r => '$' :: r.register_name.data
  | .globalSymbol s => s.data
  | .macroArg n a => '%' :: (n.data ++ ('(' :: (argStr a ++ [')'])))
  | .numberLiteral v => pythonHex v
  | .addressMode lhs rhs => argStr lhs ++ ('(' :: (argStr rhs ++ [')']))
  | .addressModeNoLhs rhs => '(' :: (argStr rhs ++ [')'])
  | .binOp op l r => argStr l ++ (' ' :: (op.data ++ (' ' :: argStr r)))
  | .jumpTarget t => '.' :: t.data

theorem stringMk_data (s : String) : String.mk s.data = s := by
  rcases s with ⟨d⟩
  rfl

theorem headOk_paren (r : List Char) : headOk (')' :: r) = true := rfl

theorem pythonHex_cons (v : Int) : ∃ hd tl, pythonHex v = hd :: tl := by
  unfold pythonHex
  by_cases hv : v < 0
  · rw [if_pos hv]
    exact ⟨_, _, rfl⟩
  · rw [if_neg hv]
    exact ⟨_, _, rfl⟩

theorem pythonHex_head_cases (v : Int) (hd : Char) (tl : List Char)
    (hpy : pythonHex v = hd :: tl) : hd = '-' ∨ hd = '0' := by
  unfold pythonHex at hpy
  by_cases hv : v < 0
  · rw [if_pos hv] at hpy
    injection hpy with h1 _
    exact Or.inl h1.symm
  · rw [if_neg hv] at hpy
    injection hpy with h1 _
    exact Or.inr h1.symm

/-- Parse one serialised NumberLiteral and continue the loop with the value
set, on any continuation whose head is not a number character. -/
theorem parse_number_then (f : Nat) (v : Int) (r2 : List Char)
    (hb : ∀ c, r2.head? = some c → isValidNumberChar c = false) :
    ∀ (hd : Char) (tl : List Char), pythonHex v = hd :: tl →
    parseArgElems ((f + tl.length + 1) + 1) (hd :: (tl ++ r2)) none =
      parseArgElems (f + tl.length + 1) r2 (some (.numberLiteral v)) := by
  intro hd tl hpy
  have hchars : ∀ c ∈ hd :: tl, isValidNumberChar c = true := by
    rw [← hpy]
    exact pythonHex_all_number v
  have hstep : ∀ (recur : List Char → Option Argument →
        Option (Option Argument × List Char)) (rest : List Char),
      parseArgElemsStep recur hd rest none =
        (match parseWord isValidNumberChar (hd :: rest) with
         | (w, r') =>
           match pyLiteralEvalInt w with
           | some n => recur r' (some (.numberLiteral n))
           | none => none) := by
    rcases pythonHex_head_cases v hd tl hpy with rfl | rfl
    · exact step_minus
    · exact step_zero
  rw [parseArgElems_cons, hstep]
  have hl : hd :: (tl ++ r2) = (hd :: tl) ++ r2 := rfl
  rw [hl, parseWord_append isValidNumberChar (hd :: tl) hchars r2 hb]
  have hev := pyLiteralEvalInt_pythonHex v
  rw [hpy] at hev
  show (match pyLiteralEvalInt (hd :: tl) with
        | some n => parseArgElems (f + tl.length + 1) r2 (some (.numberLiteral n))
        | none => none) =
      parseArgElems (f + tl.length + 1) r2 (some (.numberLiteral v))
  rw [hev]

theorem parseCanonAux :
    ∀ (N : Nat) (a : Argument), sizeOf a ≤ N → canonArg a = true →
    ∀ (r : List Char), headOk r = true → ∀ (f : Nat),
    parseArgElems (f + (argStr a).length + 1) (argStr a ++ r) none =
      some (some a, r) := by
  intro N
  induction N with
  | zero =>
    intro a hsz
    exfalso
    cases a <;> simp_arith at hsz
  | succ N ih =>
    intro a hsz hca r hr f
    cases a with
    | register r0 =>
      obtain ⟨s0⟩ := r0
      obtain ⟨L⟩ := s0
      have hall : L.all isValidWordChar = true := hca
      have hw : ∀ c ∈ L, isValidWordChar c = true := List.all_eq_true.mp hall
      have hfuel : f + (argStr (Argument.register ⟨⟨L⟩⟩)).length + 1 =
          (f + L.length + 1) + 1 := by
        show f + ('$' :: L).length + 1 = (f + L.length + 1) + 1
        simp only [List.length_cons]
        omega
      rw [hfuel]
      have hshape : argStr (Argument.register ⟨⟨L⟩⟩) ++ r = '$' :: (L ++ r) := rfl
      rw [hshape, parseArgElems_cons, step_dollar]
      rw [parseWord_append isValidWordChar L hw r
        (headOk_not_valid r hr isValidWordChar (by decide))]
      show parseArgElems (f + L.length + 1) r
        (some (.register ⟨String.mk L⟩)) =
        some (some (Argument.register ⟨⟨L⟩⟩), r)
      exact parseArgElems_terminal _ _ r hr
    | jumpTarget t =>
      obtain ⟨L⟩ := t
      have hall : L.all isValidWordChar = true := hca
      have hw : ∀ c ∈ L, isValidWordChar c = true := List.all_eq_true.mp hall
      have hfuel : f + (argStr (Argument.jumpTarget ⟨L⟩)).length + 1 =
          (f + L.length + 1) + 1 := by
        show f + ('.' :: L).length + 1 = (f + L.length + 1) + 1
        simp only [List.length_cons]
        omega
      rw [hfuel]
      have hshape : argStr (Argument.jumpTarget ⟨L⟩) ++ r = '.' :: (L ++ r) := rfl
      rw [hshape, parseArgElems_cons, step_dot]
      rw [parseWord_append isValidWordChar L hw r
        (headOk_not_valid r hr isValidWordChar (by decide))]
      show parseArgElems (f + L.length + 1) r
        (some (.jumpTarget (String.mk L))) =
        some (some (Argument.jumpTarget ⟨L⟩), r)
      exact parseArgElems_terminal _ _ r hr
    | globalSymbol s0 =>
      obtain ⟨L⟩ := s0
      rcases L with - | ⟨c0, L2⟩
      · exact absurd hca (by simp [canonArg])
      · have hca2 : (!c0.isDigit && (c0 :: L2).all isValidWordChar) = true := hca
        have hparts := hca2
        simp only [Bool.and_eq_true] at hparts
        have hd : c0.isDigit = false := by simpa using hparts.1
        have hall : ∀ c ∈ c0 :: L2, isValidWordChar c = true :=
          List.all_eq_true.mp hparts.2
        have hc0 : isValidWordChar c0 = true := hall c0 (List.mem_cons_self _ _)
        have hfuel : f + (argStr (Argument.globalSymbol ⟨c0 :: L2⟩)).length + 1 =
            (f + L2.length + 1) + 1 := by
          show f + (c0 :: L2).length + 1 = (f + L2.length + 1) + 1
          simp only [List.length_cons]
          omega
        rw [hfuel]
        have hshape : argStr (Argument.globalSymbol ⟨c0 :: L2⟩) ++ r =
            c0 :: (L2 ++ r) := rfl
        rw [hshape, parseArgElems_cons, step_word _ c0 _ hc0 hd]
        have hl : c0 :: (L2 ++ r) = (c0 :: L2) ++ r := rfl
        rw [hl, parseWord_append isValidWordChar (c0 :: L2) hall r
          (headOk_not_valid r hr isValidWordChar (by decide))]
        show parseArgElems (f + L2.length + 1) r
          (some (.globalSymbol (String.mk (c0 :: L2)))) =
          some (some (Argument.globalSymbol ⟨c0 :: L2⟩), r)
        exact parseArgElems_terminal _ _ r hr
    | numberLiteral v =>
      obtain ⟨hd, tl, hpy⟩ := pythonHex_cons v
      have hfuel : f + (argStr (Argument.numberLiteral v)).length + 1 =
          ((f + tl.length + 1) + 1) := by
        show f + (pythonHex v).length + 1 = (f + tl.length + 1) + 1
        rw [hpy]
        simp only [List.length_cons]
        omega
      rw [hfuel]
      have hshape : argStr (Argument.numberLiteral v) ++ r = hd :: (tl ++ r) := by
        show pythonHex v ++ r = hd :: (tl ++ r)
        rw [hpy]
        rfl
      rw [hshape]
      rw [parse_number_then f v r
        (headOk_not_valid r hr isValidNumberChar (by decide)) hd tl hpy]
      exact parseArgElems_terminal _ _ r hr
    | macroArg n a =>
      have hca2 : ((n == "hi" || n == "lo") && canonArg a) = true := hca
      have hparts := hca2
      simp only [Bool.and_eq_true, Bool.or_eq_true, beq_iff_eq] at hparts
      have hn : n = "hi" ∨ n = "lo" := hparts.1
      have hcaa : canonArg a = true := hparts.2
      have hsa : sizeOf a ≤ N := by
        have hs := hsz
        simp only [Argument.macroArg.sizeOf_spec] at hs
        omega
      have hn2 : n.data.length = 2 := by
        rcases hn with rfl | rfl <;> rfl
      have hnw : ∀ c ∈ n.data, isValidWordChar c = true := by
        rcases hn with rfl | rfl <;> decide
      have hcond : n.data = ['h', 'i'] ∨ n.data = ['l', 'o'] := by
        rcases hn with rfl | rfl
        · exact Or.inl rfl
        · exact Or.inr rfl
      have hfuel : f + (argStr (Argument.macroArg n a)).length + 1 =
          (((f + 4) + (argStr a).length + 1) + 1) := by
        show f + ('%' :: (n.data ++ ('(' :: (argStr a ++ [')'])))).length + 1 = _
        simp only [List.length_cons, List.length_append, List.length_cons,
          List.length_nil, hn2]
        omega
      rw [hfuel]
      have hshape : argStr (Argument.macroArg n a) ++ r =
          '%' :: (n.data ++ ('(' :: (argStr a ++ (')' :: r)))) := by
        show ('%' :: (n.data ++ ('(' :: (argStr a ++ [')'])))) ++ r = _
        simp [List.append_assoc]
      rw [hshape, parseArgElems_cons, step_percent]
      rw [parseWord_append isValidWordChar n.data hnw
        ('(' :: (argStr a ++ (')' :: r)))
        (by intro c hc; rw [List.head?_cons] at hc; cases hc; decide)]
      show (if n.data = ['h', 'i'] ∨ n.data = ['l', 'o'] then
              match '(' :: (argStr a ++ (')' :: r)) with
              | '(' :: r2 =>
                match parseArgElems ((f + 4) + (argStr a).length + 1) r2 none with
                | some (some m, ')' :: r3) =>
                  parseArgElems ((f + 4) + (argStr a).length + 1) r3
                    (some (.macroArg (String.mk n.data) m))
                | _ => none
              | _ => none
            else none) = some (some (Argument.macroArg n a), r)
      rw [if_pos hcond]
      show (match parseArgElems ((f + 4) + (argStr a).length + 1)
              (argStr a ++ (')' :: r)) none with
            | some (some m, ')' :: r3) =>
              parseArgElems ((f + 4) + (argStr a).length + 1) r3
                (some (.macroArg (String.mk n.data) m))
            | _ => none) = some (some (Argument.macroArg n a), r)
      rw [ih a hsa hcaa (')' :: r) (headOk_paren r) (f + 4)]
      show parseArgElems ((f + 4) + (argStr a).length + 1) r
        (some (.macroArg (String.mk n.data) a)) =
        some (some (Argument.macroArg n a), r)
      rw [stringMk_data n]
      exact parseArgElems_terminal _ _ r hr
    | addressModeNoLhs rhs =>
      have hcar : canonArg rhs = true := hca
      have hsa : sizeOf rhs ≤ N := by
        have hs := hsz
        simp only [Argument.addressModeNoLhs.sizeOf_spec] at hs
        omega
      have hfuel : f + (argStr (Argument.addressModeNoLhs rhs)).length + 1 =
          (((f + 1) + (argStr rhs).length + 1) + 1) := by
        show f + ('(' :: (argStr rhs ++ [')'])).length + 1 = _
        simp only [List.length_cons, List.length_append, List.length_nil]
        omega
      rw [hfuel]
      have hshape : argStr (Argument.addressModeNoLhs rhs) ++ r =
          '(' :: (argStr rhs ++ (')' :: r)) := by
        show ('(' :: (argStr rhs ++ [')'])) ++ r = _
        simp [List.append_assoc]
      rw [hshape, parseArgElems_cons, step_lparen_none]
      rw [ih rhs hsa hcar (')' :: r) (headOk_paren r) (f + 1)]
      show parseArgElems ((f + 1) + (argStr rhs).length + 1) r
        (some (.addressModeNoLhs rhs)) =
        some (some (Argument.addressModeNoLhs rhs), r)
      exact parseArgElems_terminal _ _ r hr
    | binOp op l rh =>
      exact absurd hca (by simp [canonArg])
    | addressMode lhs rhs =>
      have hsr : sizeOf rhs ≤ N := by
        have hs := hsz
        simp only [Argument.addressMode.sizeOf_spec] at hs
        omega
      cases lhs with
      | numberLiteral v =>
        have hca2 : (true && true && canonArg rhs) = true := hca
        have hcar : canonArg rhs = true := by simpa using hca2
        obtain ⟨hd, tl, hpy⟩ := pythonHex_cons v
        have hfuel : f + (argStr (Argument.addressMode (.numberLiteral v) rhs)).length + 1 =
            ((((f + (argStr rhs).length + 2) + tl.length + 1) + 1)) := by
          show f + (pythonHex v ++ ('(' :: (argStr rhs ++ [')']))).length + 1 = _
          rw [hpy]
          simp only [List.length_cons, List.length_append, List.length_nil]
          omega
        rw [hfuel]
        have hshape : argStr (Argument.addressMode (.numberLiteral v) rhs) ++ r =
            hd :: (tl ++ ('(' :: (argStr rhs ++ (')' :: r)))) := by
          show (pythonHex v ++ ('(' :: (argStr rhs ++ [')']))) ++ r = _
          rw [hpy]
          simp [List.append_assoc]
        rw [hshape]
        rw [parse_number_then (f + (argStr rhs).length + 2) v
          ('(' :: (argStr rhs ++ (')' :: r)))
          (by intro c hc; rw [List.head?_cons] at hc; cases hc; decide) hd tl hpy]
        rw [parseArgElems_cons, step_lparen_num]
        rw [show (f + (argStr rhs).length + 2) + tl.length =
            ((f + tl.length + 1) + (argStr rhs).length + 1) from by omega]
        rw [ih rhs hsr hcar (')' :: r) (headOk_paren r) (f + tl.length + 1)]
        show parseArgElems ((f + tl.length + 1) + (argStr rhs).length + 1) r
          (some (.addressMode (.numberLiteral v) rhs)) =
          some (some (Argument.addressMode (.numberLiteral v) rhs), r)
        exact parseArgElems_terminal _ _ r hr
      | macroArg mn ma =>
        have hca2 : (true && ((mn == "hi" || mn == "lo") && canonArg ma) &&
            canonArg rhs) = true := hca
        have hparts2 := hca2
        simp only [Bool.and_eq_true, Bool.or_eq_true, beq_iff_eq,
          Bool.true_and] at hparts2
        have hn : mn = "hi" ∨ mn = "lo" := hparts2.1.1
        have hcaa : canonArg ma = true := hparts2.1.2
        have hcar : canonArg rhs = true := hparts2.2
        have hsa : sizeOf ma ≤ N := by
          have hs := hsz
          simp only [Argument.addressMode.sizeOf_spec,
            Argument.macroArg.sizeOf_spec] at hs
          omega
        have hn2 : mn.data.length = 2 := by
          rcases hn with rfl | rfl <;> rfl
        have hnw : ∀ c ∈ mn.data, isValidWordChar c = true := by
          rcases hn with rfl | rfl <;> decide
        have hcond : mn.data = ['h', 'i'] ∨ mn.data = ['l', 'o'] := by
          rcases hn with rfl | rfl
          · exact Or.inl rfl
          · exact Or.inr rfl
        have hfuel : f + (argStr (Argument.addressMode (.macroArg mn ma) rhs)).length + 1 =
            ((((f + (argStr rhs).length + 6) + (argStr ma).length + 1) + 1)) := by
          show f + (('%' :: (mn.data ++ ('(' :: (argStr ma ++ [')'])))) ++
            ('(' :: (argStr rhs ++ [')']))).length + 1 = _
          simp only [List.length_cons, List.length_append, List.length_nil, hn2]
          omega
        rw [hfuel]
        have hshape : argStr (Argument.addressMode (.macroArg mn ma) rhs) ++ r =
            '%' :: (mn.data ++ ('(' :: (argStr ma ++ (')' ::
              ('(' :: (argStr rhs ++ (')' :: r))))))) := by
          show (('%' :: (mn.data ++ ('(' :: (argStr ma ++ [')'])))) ++
            ('(' :: (argStr rhs ++ [')']))) ++ r = _
          simp [List.append_assoc]
        rw [hshape, parseArgElems_cons, step_percent]
        rw [parseWord_append isValidWordChar mn.data hnw
          ('(' :: (argStr ma ++ (')' :: ('(' :: (argStr rhs ++ (')' :: r))))))
          (by intro c hc; rw [List.head?_cons] at hc; cases hc; decide)]
        show (if mn.data = ['h', 'i'] ∨ mn.data = ['l', 'o'] then
                match '(' :: (argStr ma ++ (')' ::
                    ('(' :: (argStr rhs ++ (')' :: r))))) with
                | '(' :: r2 =>
                  match parseArgElems ((f + (argStr rhs).length + 6) +
                      (argStr ma).length + 1) r2 none with
                  | some (some m, ')' :: r3) =>
                    parseArgElems ((f + (argStr rhs).length + 6) +
                      (argStr ma).length + 1) r3
                      (some (.macroArg (String.mk mn.data) m))
                  | _ => none
                | _ => none
              else none) =
          some (some (Argument.addressMode (.macroArg mn ma) rhs), r)
        rw [if_pos hcond]
        show (match parseArgElems ((f + (argStr rhs).length + 6) +
                (argStr ma).length + 1)
                (argStr ma ++ (')' :: ('(' :: (argStr rhs ++ (')' :: r))))) none with
              | some (some m, ')' :: r3) =>
                parseArgElems ((f + (argStr rhs).length + 6) +
                  (argStr ma).length + 1) r3
                  (some (.macroArg (String.mk mn.data) m))
              | _ => none) =
          some (some (Argument.addressMode (.macroArg mn ma) rhs), r)
        rw [ih ma hsa hcaa (')' :: ('(' :: (argStr rhs ++ (')' :: r))))
          (headOk_paren _) (f + (argStr rhs).length + 6)]
        show parseArgElems ((f + (argStr rhs).length + 6) + (argStr ma).length + 1)
            ('(' :: (argStr rhs ++ (')' :: r)))
            (some (.macroArg (String.mk mn.data) ma)) =
          some (some (Argument.addressMode (.macroArg mn ma) rhs), r)
        rw [stringMk_data mn]
        rw [show ((f + (argStr rhs).length + 6) + (argStr ma).length + 1) =
            (((f + (argStr ma).length + 5) + (argStr rhs).length + 1) + 1)
          from by omega]
        rw [parseArgElems_cons, step_lparen_macro]
        rw [ih rhs hsr hcar (')' :: r) (headOk_paren r)
          (f + (argStr ma).length + 5)]
        show parseArgElems ((f + (argStr ma).length + 5) + (argStr rhs).length + 1) r
          (some (.addressMode (.macroArg mn ma) rhs)) =
          some (some (Argument.addressMode (.macroArg mn ma) rhs), r)
        exact parseArgElems_terminal _ _ r hr
      | register rr => exact absurd hca (by simp [canonArg])
      | globalSymbol ss => exact absurd hca (by simp [canonArg])
      | addressMode l2 r2 => exact absurd hca (by simp [canonArg])
      | addressModeNoLhs r2 => exact absurd hca (by simp [canonArg])
      | binOp o2 l2 r2 => exact absurd hca (by simp [canonArg])
      | jumpTarget t2 => exact absurd hca (by simp [canonArg])

/-- C9: for every canonical operand string — the serialisation `argStr a` of any
canonically-shaped Argument `a` (every form except BinOp: registers, global
symbols, %hi/%lo macros, number literals, address modes and jump targets, with
word fields made of valid word characters) — `parse_arg` succeeds and returns
exactly `a`, so re-serialising the parse result reproduces the input string:
`str(parse_arg(s)) = s`. -/
theorem c9_round_trip (a : Argument) (h : canonArg a = true) :
    parseArg (String.mk (argStr a)) = some (some a) := by
  have hmain := parseCanonAux (sizeOf a) a (Nat.le_refl _) h [] rfl 0
  rw [List.append_nil, Nat.zero_add] at hmain
  show (parseArgElems ((argStr a).length + 1) (argStr a) none).map Prod.fst =
    some (some a)
  rw [hmain]
  rfl

theorem c9_round_trip_witness :
    canonArg (Argument.addressMode (.numberLiteral (-16))
      (.register ⟨"sp"⟩)) = true ∧
    String.mk (argStr (Argument.addressMode (.numberLiteral (-16))
      (.register ⟨"sp"⟩))) = "-0x10($sp)" ∧
    parseArg (String.mk (argStr (Argument.addressMode (.numberLiteral (-16))
      (.register ⟨"sp"⟩)))) =
      some (some (Argument.addressMode (.numberLiteral (-16))
        (.register ⟨"sp"⟩))) :=
  ⟨rfl, rfl, c9_round_trip (Argument.addressMode (.numberLiteral (-16))
    (.register ⟨"sp"⟩)) rfl⟩
